import Mathlib

/-!
# Verification of the layered-graph layout engine

Shallow embedding of the layout pipeline found in `src/bin/petgraph.rs` and
`src/bin/sugiyama.rs`:

* rank assignment (`assign_layers`, petgraph.rs lines 31-87),
* barycenter layer ordering (`order_nodes_within_layers`, lines 90-197),
* coordinate assignment (`assign_coordinates` lines 200-252 and
  `adjust_positions` lines 255-272),
* edge routing (`build_supply_chain_layout`, sugiyama.rs lines 589-617) and
  border clipping (`calculate_node_border_intersection`, lines 989-1073),
* graph construction from id lists (sugiyama.rs lines 526-540,
  petgraph.rs lines 347-351).

Machine floats (`f64`) are modelled by `ℚ` (all the arithmetic the claims
touch is exact there), except for the euclidean distance in the curvature
computation, which genuinely needs `Real.sqrt`.  `usize` is modelled by `Nat`
together with the explicit constant `usizeMax = 2 ^ 64 - 1` where the source
mentions `usize::MAX`.  Rust `HashMap`s are modelled by association lists
whose `insert` overwrites (last write wins); iteration order over a `HashMap`,
which Rust does not fix, is passed in explicitly as a parameter.
-/

namespace HGL

/-- A directed graph: nodes are `0 .. n-1`, edges are ordered pairs.
This models `petgraph::DiGraph` as used by the engine (node payloads are
irrelevant to the layout). -/
structure Graph where
  n : Nat
  edges : List (Nat × Nat)
deriving DecidableEq, Repr

/-- `graph.neighbors_directed(v, Direction::Incoming)`: one entry per
incoming edge (multi-edges repeat). -/
def preds (g : Graph) (v : Nat) : List Nat :=
  (g.edges.filter (fun e => e.2 = v)).map (fun e => e.1)

/-- `graph.neighbors_directed(v, Direction::Outgoing)`: one entry per
outgoing edge. -/
def succs (g : Graph) (v : Nat) : List Nat :=
  (g.edges.filter (fun e => e.1 = v)).map (fun e => e.2)

/-- A `HashMap<NodeIndex, usize>`, modelled as an association list. -/
abbrev RankMap : Type := List (Nat × Nat)

/-- `HashMap::get`. -/
def lookupR (m : RankMap) (v : Nat) : Option Nat :=
  (List.find? (fun p => p.1 = v) m).map (fun p => p.2)

/-- `HashMap::insert` (overwrites an existing binding, else appends). -/
def insertR (m : RankMap) (v r : Nat) : RankMap :=
  if (List.find? (fun p => p.1 = v) m).isSome then
    m.map (fun p => if p.1 = v then (v, r) else p)
  else m ++ [(v, r)]

/-- `usize::MAX`. -/
def usizeMax : Nat := 2 ^ 64 - 1

/-- First phase of `assign_layers` (petgraph.rs lines 34-41): every node with
in-degree 0 is inserted at rank 0. -/
def initRanks (g : Graph) : RankMap :=
  (List.range g.n).foldl
    (fun m v => if preds g v = [] then insertR m v 0 else m) []

/-- Body of the topological loop of `assign_layers` (lines 45-67): skip
already-assigned nodes, otherwise insert `max (pred rank + 1)` over the
predecessors (`unwrap_or(&0)` on an unassigned predecessor), or 0 when the
node has no predecessor. -/
def assignStep (g : Graph) (m : RankMap) (v : Nat) : RankMap :=
  if (lookupR m v).isSome then m
  else
    let ps := preds g v
    if ps = [] then insertR m v 0
    else insertR m v (ps.foldl (fun acc p => max acc ((lookupR m p).getD 0 + 1)) 0)

/-- Lines 69-76: any rank still holding the `usize::MAX` sentinel is patched
to `max_rank + 1` (`values().max().unwrap_or(0)`). -/
def fixUnassigned (m : RankMap) : RankMap :=
  let maxR := (m.map (fun p => p.2)).foldl max 0
  m.map (fun p => if p.2 = usizeMax then (p.1, maxR + 1) else p)

/-- `node_ranks.values().min().unwrap_or(&0)` (line 79). -/
def minVals (m : RankMap) : Nat :=
  match m.map (fun p => p.2) with
  | [] => 0
  | x :: xs => xs.foldl min x

/-- Lines 78-84: normalize ranks so they start from 0 (only when the current
minimum is positive). -/
def normalize (m : RankMap) : RankMap :=
  let minR := minVals m
  if minR > 0 then m.map (fun p => (p.1, p.2 - minR)) else m

/-- `assign_layers` (petgraph.rs lines 31-87).  `order` is the sequence of
nodes visited by `petgraph::visit::Topo` — a topological order of the whole
node set when the graph is a DAG, and a sequence omitting every node involved
in (or only reachable through) a cycle otherwise. -/
def assign_layers (g : Graph) (order : List Nat) : RankMap :=
  normalize (fixUnassigned (order.foldl (assignStep g) (initRanks g)))

/-- `order` visits every node exactly once and every edge goes forward: the
properties petgraph's `Topo` guarantees on a DAG. -/
def IsTopoOrder (g : Graph) (order : List Nat) : Prop :=
  order.Perm (List.range g.n) ∧
    ∀ e ∈ g.edges, order.indexOf e.1 < order.indexOf e.2

instance (g : Graph) (order : List Nat) : Decidable (IsTopoOrder g order) := by
  unfold IsTopoOrder; infer_instance

/-- One concrete topological traversal (Kahn style): repeatedly visit the
first remaining node all of whose predecessors are already visited.  On a
cyclic input it stops early, exactly like `petgraph::visit::Topo`, which
never yields a node before all its predecessors. -/
def topoVisitAux (g : Graph) : Nat → List Nat → List Nat → List Nat
  | 0, _, acc => acc.reverse
  | fuel + 1, remaining, acc =>
    match remaining.find? (fun v => (preds g v).all (fun p => acc.contains p)) with
    | none => acc.reverse
    | some v => topoVisitAux g fuel (remaining.erase v) (v :: acc)

/-- The node sequence produced by the topological traversal. -/
def topoVisit (g : Graph) : List Nat :=
  topoVisitAux g g.n (List.range g.n) []

/-- Edge endpoints are valid node indices (petgraph's `add_edge` enforces
this; an invalid index panics). -/
def Graph.Wf (g : Graph) : Prop :=
  ∀ e ∈ g.edges, e.1 < g.n ∧ e.2 < g.n

instance (g : Graph) : Decidable g.Wf := by
  unfold Graph.Wf; infer_instance

/-! ### Association-map lemmas -/

theorem find?_keyfix (m : RankMap) (v r w : Nat) :
    List.find? (fun p => p.1 = w) (m.map (fun p => if p.1 = v then (v, r) else p))
      = (List.find? (fun p => p.1 = w) m).map (fun p => if p.1 = v then (v, r) else p) := by
  rw [List.find?_map]
  have hpred : ((fun p : Nat × Nat => decide (p.1 = w)) ∘ fun p => if p.1 = v then (v, r) else p)
      = fun p : Nat × Nat => decide (p.1 = w) := by
    funext p
    by_cases h : p.1 = v <;> simp [h]
  rw [hpred]

theorem lookupR_insertR_self (m : RankMap) (v r : Nat) :
    lookupR (insertR m v r) v = some r := by
  unfold insertR
  split
  · rename_i h
    unfold lookupR
    rw [find?_keyfix]
    obtain ⟨p, hp⟩ := Option.isSome_iff_exists.1 h
    rw [hp]
    have hpv := List.find?_some hp
    simp only [decide_eq_true_eq] at hpv
    simp [hpv]
  · unfold lookupR
    rw [List.find?_append]
    rename_i h
    cases hf : List.find? (fun p => decide (p.1 = v)) m with
    | none => simp [List.find?]
    | some p => rw [hf] at h; simp at h

theorem lookupR_insertR_other (m : RankMap) (v r w : Nat) (hw : w ≠ v) :
    lookupR (insertR m v r) w = lookupR m w := by
  unfold insertR
  split
  · unfold lookupR
    rw [find?_keyfix]
    cases hf : List.find? (fun p => decide (p.1 = w)) m with
    | none => simp
    | some p =>
      have hp := List.find?_some hf
      simp only [decide_eq_true_eq] at hp
      have hpv : ¬ p.1 = v := by rw [hp]; exact hw
      simp [hpv]
  · unfold lookupR
    rw [List.find?_append]
    have hd : (decide (v = w)) = false := decide_eq_false (Ne.symm hw)
    have hnone : List.find? (fun p => p.1 = w) [(v, r)] = none := by
      simp [List.find?, hd]
    rw [hnone, Option.or_none]

theorem mem_insertR {m : RankMap} {v r : Nat} {q : Nat × Nat}
    (hq : q ∈ insertR m v r) : q ∈ m ∨ q = (v, r) := by
  unfold insertR at hq
  split at hq
  · rcases List.mem_map.1 hq with ⟨p, hp, hpq⟩
    by_cases h : p.1 = v
    · right; rw [if_pos h] at hpq; exact hpq.symm
    · left; rw [if_neg h] at hpq; exact hpq ▸ hp
  · rcases List.mem_append.1 hq with h | h
    · exact Or.inl h
    · right; simpa using h

theorem lookupR_mem {m : RankMap} {v r : Nat} (h : lookupR m v = some r) :
    (v, r) ∈ m := by
  unfold lookupR at h
  rcases Option.map_eq_some'.1 h with ⟨p, hp, hpr⟩
  have hm := List.mem_of_find?_eq_some hp
  have hv := List.find?_some hp
  simp only [decide_eq_true_eq] at hv
  have : p = (v, r) := by
    cases p
    simp only at hv hpr
    simp [hv, hpr]
  exact this ▸ hm

/-! ### The topological fold of `assign_layers` -/

theorem lookupR_assignStep_of_some {g : Graph} {m : RankMap} {w r : Nat}
    (v : Nat) (h : lookupR m w = some r) :
    lookupR (assignStep g m v) w = some r := by
  unfold assignStep
  split
  · exact h
  · rename_i hnone
    have hv : lookupR m v = none := by
      cases hlv : lookupR m v with
      | none => rfl
      | some _ => rw [hlv] at hnone; simp at hnone
    have hwv : w ≠ v := by
      intro he; rw [he, hv] at h; cases h
    dsimp only
    split <;> rw [lookupR_insertR_other _ _ _ _ hwv] <;> exact h

theorem lookupR_foldl_of_some (g : Graph) {m : RankMap} {w r : Nat}
    (h : lookupR m w = some r) (l : List Nat) :
    lookupR (l.foldl (assignStep g) m) w = some r := by
  induction l generalizing m with
  | nil => exact h
  | cons v l ih => exact ih (lookupR_assignStep_of_some v h)

theorem lookupR_assignStep_other {g : Graph} {m : RankMap} {v w : Nat}
    (hwv : w ≠ v) :
    lookupR (assignStep g m v) w = lookupR m w := by
  unfold assignStep
  split
  · rfl
  · dsimp only
    split <;> exact lookupR_insertR_other _ _ _ _ hwv

theorem lookupR_foldl_not_mem (g : Graph) {w : Nat} {l : List Nat}
    (hw : w ∉ l) (m : RankMap) :
    lookupR (l.foldl (assignStep g) m) w = lookupR m w := by
  induction l generalizing m with
  | nil => rfl
  | cons v l ih =>
    have hwv : w ≠ v := fun he => hw (he ▸ List.mem_cons_self v l)
    have hl : w ∉ l := fun he => hw (List.mem_cons_of_mem v he)
    rw [List.foldl_cons, ih hl, lookupR_assignStep_other hwv]

theorem isSome_lookupR_assignStep_self (g : Graph) (m : RankMap) (v : Nat) :
    (lookupR (assignStep g m v) v).isSome := by
  unfold assignStep
  split
  · assumption
  · dsimp only
    split <;> rw [lookupR_insertR_self] <;> rfl

theorem isSome_lookupR_foldl_of_mem (g : Graph) {v : Nat} {l : List Nat}
    (hv : v ∈ l) (m : RankMap) :
    (lookupR (l.foldl (assignStep g) m) v).isSome := by
  induction l generalizing m with
  | nil => cases hv
  | cons w l ih =>
    rw [List.foldl_cons]
    rcases List.mem_cons.1 hv with he | hm
    · subst he
      obtain ⟨r, hr⟩ := Option.isSome_iff_exists.1
        (isSome_lookupR_assignStep_self g m v)
      rw [lookupR_foldl_of_some g hr]
      rfl
    · exact ih hm _

theorem lookupR_initRanksAux (g : Graph) (k v : Nat) :
    lookupR ((List.range k).foldl
        (fun m u => if preds g u = [] then insertR m u 0 else m) [])
      v = if v < k ∧ preds g v = [] then some 0 else none := by
  induction k with
  | zero => simp [lookupR]
  | succ k ih =>
    rw [List.range_succ, List.foldl_append, List.foldl_cons, List.foldl_nil]
    by_cases hv : v = k
    · subst hv
      by_cases hp : preds g v = []
      · rw [if_pos hp, lookupR_insertR_self, if_pos ⟨Nat.lt_succ_self v, hp⟩]
      · rw [if_neg hp]
        rw [ih]
        simp [hp]
    · have hstep : lookupR
          (if preds g k = []
            then insertR ((List.range k).foldl
              (fun m u => if preds g u = [] then insertR m u 0 else m) []) k 0
            else (List.range k).foldl
              (fun m u => if preds g u = [] then insertR m u 0 else m) []) v
          = lookupR ((List.range k).foldl
              (fun m u => if preds g u = [] then insertR m u 0 else m) []) v := by
        split
        · exact lookupR_insertR_other _ _ _ _ hv
        · rfl
      rw [hstep, ih]
      have hiff : v < k + 1 ∧ preds g v = [] ↔ v < k ∧ preds g v = [] := by
        constructor
        · rintro ⟨h, hp⟩
          rcases Nat.lt_succ_iff_lt_or_eq.1 h with h | h
          · exact ⟨h, hp⟩
          · exact absurd h hv
        · rintro ⟨h, hp⟩
          exact ⟨Nat.lt_succ_of_lt h, hp⟩
      rw [if_congr hiff rfl rfl]

theorem lookupR_initRanks (g : Graph) (v : Nat) :
    lookupR (initRanks g) v
      = if v < g.n ∧ preds g v = [] then some 0 else none :=
  lookupR_initRanksAux g g.n v

theorem mem_preds {g : Graph} {u v : Nat} (h : (u, v) ∈ g.edges) :
    u ∈ preds g v :=
  List.mem_map.2 ⟨(u, v), List.mem_filter.2 ⟨h, by simp⟩, rfl⟩

theorem mem_succs {g : Graph} {u v : Nat} (h : (u, v) ∈ g.edges) :
    v ∈ succs g u :=
  List.mem_map.2 ⟨(u, v), List.mem_filter.2 ⟨h, by simp⟩, rfl⟩

/-! ### Fold-max and fold-min helpers -/

theorem le_foldl_max_init (f : Nat → Nat) (l : List Nat) (a : Nat) :
    a ≤ l.foldl (fun acc p => max acc (f p)) a := by
  induction l generalizing a with
  | nil => exact le_refl a
  | cons x l ih => exact le_trans (le_max_left a (f x)) (ih _)

theorem le_foldl_max_of_mem (f : Nat → Nat) {p : Nat} {l : List Nat}
    (hp : p ∈ l) (a : Nat) :
    f p ≤ l.foldl (fun acc q => max acc (f q)) a := by
  induction l generalizing a with
  | nil => cases hp
  | cons x l ih =>
    rcases List.mem_cons.1 hp with he | hm
    · subst he
      exact le_trans (le_max_right a (f p)) (le_foldl_max_init f l _)
    · exact ih hm _

theorem foldl_max_le (f : Nat → Nat) {l : List Nat} {c a : Nat}
    (ha : a ≤ c) (h : ∀ p ∈ l, f p ≤ c) :
    l.foldl (fun acc q => max acc (f q)) a ≤ c := by
  induction l generalizing a with
  | nil => exact ha
  | cons x l ih =>
    exact ih (max_le ha (h x (List.mem_cons_self x l)))
      (fun p hp => h p (List.mem_cons_of_mem x hp))

theorem foldl_min_le_init (x : Nat) (l : List Nat) : l.foldl min x ≤ x := by
  induction l generalizing x with
  | nil => exact le_refl x
  | cons y l ih => exact le_trans (ih _) (min_le_left x y)

theorem foldl_min_le_mem {a : Nat} {l : List Nat} (h : a ∈ l) (x : Nat) :
    l.foldl min x ≤ a := by
  induction l generalizing x with
  | nil => cases h
  | cons y l ih =>
    rcases List.mem_cons.1 h with he | hm
    · subst he
      rw [List.foldl_cons]
      exact le_trans (foldl_min_le_init _ _) (min_le_right x a)
    · exact ih hm _

/-! ### Value bounds through the pipeline -/

/-- Every rank value stored in the map is at most `B`. -/
def Bounded (m : RankMap) (B : Nat) : Prop := ∀ p ∈ m, p.2 ≤ B

theorem Bounded.mono {m : RankMap} {B B' : Nat} (h : Bounded m B)
    (hB : B ≤ B') : Bounded m B' :=
  fun p hp => le_trans (h p hp) hB

theorem bounded_insertR {m : RankMap} {B v r : Nat} (hm : Bounded m B)
    (hr : r ≤ B) : Bounded (insertR m v r) B := by
  intro q hq
  rcases mem_insertR hq with h | h
  · exact hm q h
  · rw [h]
    exact hr

theorem bounded_assignStep (g : Graph) {m : RankMap} {B : Nat}
    (hm : Bounded m B) (v : Nat) : Bounded (assignStep g m v) (B + 1) := by
  unfold assignStep
  split
  · exact hm.mono (Nat.le_succ B)
  · dsimp only
    split
    · exact bounded_insertR (hm.mono (Nat.le_succ B)) (Nat.zero_le _)
    · refine bounded_insertR (hm.mono (Nat.le_succ B)) ?_
      refine foldl_max_le _ (Nat.zero_le _) ?_
      intro p hp
      cases hl : lookupR m p with
      | none => simp
      | some r =>
        have := hm _ (lookupR_mem hl)
        simp only [Option.getD_some]
        omega

theorem bounded_foldl (g : Graph) {m : RankMap} {B : Nat}
    (hm : Bounded m B) (l : List Nat) :
    Bounded (l.foldl (assignStep g) m) (B + l.length) := by
  induction l generalizing m B with
  | nil => simpa using hm
  | cons v l ih =>
    rw [List.foldl_cons, List.length_cons]
    exact (ih (bounded_assignStep g hm v)).mono (by omega)

theorem bounded_initRanksAux (g : Graph) (l : List Nat) {m₀ : RankMap}
    (hm : Bounded m₀ 0) :
    Bounded (l.foldl (fun m u => if preds g u = [] then insertR m u 0 else m) m₀) 0 := by
  induction l generalizing m₀ with
  | nil => exact hm
  | cons v l ih =>
    rw [List.foldl_cons]
    refine ih ?_
    split
    · exact bounded_insertR hm (le_refl 0)
    · exact hm

theorem bounded_initRanks (g : Graph) : Bounded (initRanks g) 0 :=
  bounded_initRanksAux g (List.range g.n) (fun p hp => by cases hp)

/-! ### The dead `usize::MAX` patch and the normalization -/

theorem fixUnassigned_eq_self {m : RankMap}
    (h : ∀ p ∈ m, p.2 ≠ usizeMax) : fixUnassigned m = m := by
  unfold fixUnassigned
  dsimp only
  have hcong : ∀ p ∈ m,
      (if p.2 = usizeMax
        then (p.1, (m.map (fun p => p.2)).foldl max 0 + 1) else p) = id p :=
    fun p hp => by simp [h p hp]
  rw [List.map_congr_left hcong, List.map_id]

theorem lookupR_mapVal (m : RankMap) (f : Nat → Nat) (v : Nat) :
    lookupR (m.map (fun p => (p.1, f p.2))) v = (lookupR m v).map f := by
  unfold lookupR
  rw [List.find?_map]
  have hpred : ((fun p : Nat × Nat => decide (p.1 = v))
      ∘ fun p : Nat × Nat => (p.1, f p.2)) = fun p : Nat × Nat => decide (p.1 = v) := rfl
  rw [hpred, Option.map_map, Option.map_map]
  rfl

theorem lookupR_normalize (m : RankMap) (v : Nat) :
    lookupR (normalize m) v
      = (lookupR m v).map (fun r => r - minVals m) := by
  unfold normalize
  dsimp only
  split
  · exact lookupR_mapVal m (fun r => r - minVals m) v
  · rename_i h
    have h0 : minVals m = 0 := Nat.eq_zero_of_not_pos h
    rw [h0]
    cases lookupR m v <;> simp

theorem minVals_le {m : RankMap} {v r : Nat} (h : lookupR m v = some r) :
    minVals m ≤ r := by
  have hm : r ∈ m.map (fun p => p.2) :=
    List.mem_map.2 ⟨(v, r), lookupR_mem h, rfl⟩
  unfold minVals
  revert hm
  cases m.map (fun p => p.2) with
  | nil => intro hm; cases hm
  | cons x xs =>
    intro hm
    rcases List.mem_cons.1 hm with he | hmem
    · subst he
      exact foldl_min_le_init _ _
    · exact foldl_min_le_mem hmem x

theorem foldl_min_sub (l : List Nat) (x c : Nat) :
    (l.map (fun a => a - c)).foldl min (x - c) = l.foldl min x - c := by
  induction l generalizing x with
  | nil => rfl
  | cons a l ih =>
    rw [List.map_cons, List.foldl_cons, List.foldl_cons, Nat.sub_min_sub_right]
    exact ih _

theorem minVals_mapSub (m : RankMap) (c : Nat) :
    minVals (m.map (fun p => (p.1, p.2 - c))) = minVals m - c := by
  unfold minVals
  rw [List.map_map]
  have hcomp : ((fun p : Nat × Nat => p.2) ∘ fun p : Nat × Nat => (p.1, p.2 - c))
      = (fun a => a - c) ∘ (fun p : Nat × Nat => p.2) := rfl
  rw [hcomp, ← List.map_map]
  cases m.map (fun p => p.2) with
  | nil => simp
  | cons x xs =>
    rw [List.map_cons]
    exact foldl_min_sub xs x c

theorem minVals_normalize (m : RankMap) : minVals (normalize m) = 0 := by
  unfold normalize
  dsimp only
  split
  · have := minVals_mapSub m (minVals m)
    rw [this]
    exact Nat.sub_self _
  · rename_i h
    exact Nat.eq_zero_of_not_pos h

theorem assignStep_value_ge {g : Graph} {m : RankMap} {v u ru : Nat}
    (hnone : lookupR m v = none) (hu : u ∈ preds g v)
    (hru : lookupR m u = some ru) :
    ∃ rv, lookupR (assignStep g m v) v = some rv ∧ ru + 1 ≤ rv := by
  unfold assignStep
  split
  · rename_i h
    rw [hnone] at h
    simp at h
  · dsimp only
    rw [if_neg (List.ne_nil_of_mem hu)]
    refine ⟨_, lookupR_insertR_self _ _ _, ?_⟩
    have hle := le_foldl_max_of_mem (fun p => (lookupR m p).getD 0 + 1) hu 0
    rw [hru] at hle
    simpa using hle

/-- C1: for every directed acyclic input graph (witnessed by a topological
visit order of the whole node set, as `petgraph::visit::Topo` produces) and
every edge `(u, v)`, the rank map returned by `assign_layers` assigns both
endpoints a rank, and `rank v ≥ rank u + 1` (strictly increasing along every
edge).  The hypothesis `g.n < usizeMax` reflects that a real petgraph graph
cannot hold `usize::MAX` nodes. -/
theorem assign_layers_strict_on_edges (g : Graph) (order : List Nat)
    (hwf : g.Wf) (htopo : IsTopoOrder g order) (hn : g.n < usizeMax)
    {u v : Nat} (he : (u, v) ∈ g.edges) :
    ∃ ru rv, lookupR (assign_layers g order) u = some ru ∧
      lookupR (assign_layers g order) v = some rv ∧ ru + 1 ≤ rv := by
  obtain ⟨hperm, hord⟩ := htopo
  have hun : u < g.n := (hwf _ he).1
  have hvn : v < g.n := (hwf _ he).2
  have hu : u ∈ order := hperm.mem_iff.2 (List.mem_range.2 hun)
  have hv : v ∈ order := hperm.mem_iff.2 (List.mem_range.2 hvn)
  have hnd : order.Nodup := hperm.nodup_iff.2 (List.nodup_range g.n)
  have hkl : order.indexOf v < order.length := List.indexOf_lt_length.2 hv
  have hgetv : order[order.indexOf v] = v := List.getElem_indexOf hkl
  have hdecomp : order.take (order.indexOf v) ++ v :: order.drop (order.indexOf v + 1)
      = order := by
    conv_rhs => rw [← List.take_append_drop (order.indexOf v) order]
    rw [← List.get_drop_eq_drop order _ hkl]
    rw [hgetv]
  have hiu : order.indexOf u < order.indexOf v := hord _ he
  have hiul : order.indexOf u < order.length := List.indexOf_lt_length.2 hu
  have hut : u ∈ order.take (order.indexOf v) := by
    have hlen : order.indexOf u < (order.take (order.indexOf v)).length := by
      rw [List.length_take]
      exact lt_min hiu hiul
    have hgu : (order.take (order.indexOf v))[order.indexOf u] = u := by
      rw [List.getElem_take]
      exact List.getElem_indexOf hiul
    exact hgu ▸ List.getElem_mem hlen
  have hvt : v ∉ order.take (order.indexOf v) := by
    have hnd2 := hnd
    rw [← hdecomp] at hnd2
    rcases List.nodup_append.1 hnd2 with ⟨-, -, hdisj⟩
    intro hmem
    exact hdisj hmem (List.mem_cons_self _ _)
  obtain ⟨ru, hru⟩ := Option.isSome_iff_exists.1
    (isSome_lookupR_foldl_of_mem g hut (initRanks g))
  have hvinit : lookupR (initRanks g) v = none := by
    rw [lookupR_initRanks]
    have hne : preds g v ≠ [] := List.ne_nil_of_mem (mem_preds he)
    simp [hne]
  have hvm₁ : lookupR ((order.take (order.indexOf v)).foldl (assignStep g)
      (initRanks g)) v = none := by
    rw [lookupR_foldl_not_mem g hvt, hvinit]
  obtain ⟨rv, hrv, hlt⟩ := assignStep_value_ge hvm₁ (mem_preds he) hru
  have hfold : order.foldl (assignStep g) (initRanks g)
      = (order.drop (order.indexOf v + 1)).foldl (assignStep g)
          (assignStep g ((order.take (order.indexOf v)).foldl (assignStep g)
            (initRanks g)) v) := by
    conv_lhs => rw [← hdecomp]
    rw [List.foldl_append, List.foldl_cons]
  have hru₂ : lookupR (order.foldl (assignStep g) (initRanks g)) u = some ru := by
    rw [hfold]
    exact lookupR_foldl_of_some g (lookupR_assignStep_of_some v hru) _
  have hrv₂ : lookupR (order.foldl (assignStep g) (initRanks g)) v = some rv := by
    rw [hfold]
    exact lookupR_foldl_of_some g hrv _
  have hbound : Bounded (order.foldl (assignStep g) (initRanks g)) order.length := by
    simpa using bounded_foldl g (bounded_initRanks g) order
  have hlen : order.length = g.n := by
    rw [hperm.length_eq, List.length_range]
  have hfix : fixUnassigned (order.foldl (assignStep g) (initRanks g))
      = order.foldl (assignStep g) (initRanks g) := by
    refine fixUnassigned_eq_self (fun p hp => ?_)
    have hb := hbound p hp
    rw [hlen] at hb
    omega
  unfold assign_layers
  rw [hfix]
  refine ⟨ru - minVals (order.foldl (assignStep g) (initRanks g)),
    rv - minVals (order.foldl (assignStep g) (initRanks g)), ?_, ?_, ?_⟩
  · rw [lookupR_normalize, hru₂]
    rfl
  · rw [lookupR_normalize, hrv₂]
    rfl
  · have hmin := minVals_le hru₂
    omega

/-- Witness for C1: the diamond graph `0→1, 0→2, 1→3, 2→3` with the
topological order `[0, 1, 2, 3]`, evaluated at the edge `(1, 3)`. -/
theorem assign_layers_strict_on_edges_witness :
    (Graph.mk 4 [(0, 1), (0, 2), (1, 3), (2, 3)]).Wf ∧
      IsTopoOrder (Graph.mk 4 [(0, 1), (0, 2), (1, 3), (2, 3)]) [0, 1, 2, 3] ∧
      (4 < usizeMax) ∧
      (∃ ru rv,
        lookupR (assign_layers (Graph.mk 4 [(0, 1), (0, 2), (1, 3), (2, 3)])
          [0, 1, 2, 3]) 1 = some ru ∧
        lookupR (assign_layers (Graph.mk 4 [(0, 1), (0, 2), (1, 3), (2, 3)])
          [0, 1, 2, 3]) 3 = some rv ∧ ru + 1 ≤ rv) :=
  ⟨by decide, by decide, by decide,
    assign_layers_strict_on_edges _ [0, 1, 2, 3] (by decide) (by decide)
      (by decide) (by decide)⟩

/-- C10: on a non-empty DAG the rank map returned by `assign_layers` is
non-empty and its minimum value is exactly 0. -/
theorem assign_layers_min_zero (g : Graph) (order : List Nat)
    (htopo : IsTopoOrder g order) (hpos : 0 < g.n) :
    assign_layers g order ≠ [] ∧ minVals (assign_layers g order) = 0 := by
  obtain ⟨hperm, -⟩ := htopo
  have h0 : 0 ∈ order := hperm.mem_iff.2 (List.mem_range.2 hpos)
  have hsome := isSome_lookupR_foldl_of_mem g h0 (initRanks g)
  constructor
  · intro hnil
    unfold assign_layers normalize at hnil
    dsimp only at hnil
    have hfixnil : fixUnassigned (order.foldl (assignStep g) (initRanks g)) = [] := by
      by_cases hmin : minVals (fixUnassigned (order.foldl (assignStep g) (initRanks g))) > 0
      · rw [if_pos hmin] at hnil
        exact List.map_eq_nil_iff.1 hnil
      · rw [if_neg hmin] at hnil
        exact hnil
    have hnil₂ : order.foldl (assignStep g) (initRanks g) = [] := by
      unfold fixUnassigned at hfixnil
      exact List.map_eq_nil_iff.1 hfixnil
    rw [hnil₂] at hsome
    cases hsome
  · exact minVals_normalize _

/-- Witness for C10: the two-node chain `0→1` in topological order. -/
theorem assign_layers_min_zero_witness :
    IsTopoOrder (Graph.mk 2 [(0, 1)]) [0, 1] ∧ (0 < 2) ∧
      (assign_layers (Graph.mk 2 [(0, 1)]) [0, 1] ≠ [] ∧
        minVals (assign_layers (Graph.mk 2 [(0, 1)]) [0, 1]) = 0) :=
  ⟨by decide, by decide,
    assign_layers_min_zero _ [0, 1] (by decide) (by decide)⟩

/-! ## `order_nodes_within_layers` (petgraph.rs lines 90-197)

The `HashMap<usize, Vec<NodeIndex>>` keyed by rank is modelled by an
association list whose entries appear in first-insertion order; the
enumeration order of the `node_ranks` HashMap in the grouping loop
(lines 97-99), which Rust leaves unspecified, is the explicit parameter
`enum`.  The rank map is consumed only through `HashMap::get`, so it is
passed as the function `rank : Nat → Option Nat`. -/

/-- `HashMap<usize, Vec<NodeIndex>>`. -/
abbrev Groups : Type := List (Nat × List Nat)

/-- `nodes_by_rank.get(&r)`. -/
def lookupG (gs : Groups) (r : Nat) : Option (List Nat) :=
  (List.find? (fun p => p.1 = r) gs).map (fun p => p.2)

/-- `nodes_by_rank.get(&r)` defaulted to the empty layer. -/
def getGroup (gs : Groups) (r : Nat) : List Nat :=
  (lookupG gs r).getD []

/-- `nodes_by_rank.entry(rank).or_insert_with(Vec::new).push(node)`. -/
def pushG (gs : Groups) (r v : Nat) : Groups :=
  if (List.find? (fun p => p.1 = r) gs).isSome then
    gs.map (fun p => if p.1 = r then (p.1, p.2 ++ [v]) else p)
  else gs ++ [(r, [v])]

/-- The grouping loop (lines 97-99), over the enumeration `enum` of the
`node_ranks` entries. -/
def groupByRank (enum : List (Nat × Nat)) : Groups :=
  enum.foldl (fun gs p => pushG gs p.2 p.1) []

/-- `nodes_by_rank.keys().max().cloned().unwrap_or(0)` (line 102). -/
def maxKey (gs : Groups) : Nat :=
  (gs.map (fun p => p.1)).foldl max 0

/-- In-place overwrite of rank `r`'s vector (`*nodes = ...`, line 191). -/
def updateG (gs : Groups) (r : Nat) (l : List Nat) : Groups :=
  gs.map (fun p => if p.1 = r then (p.1, l) else p)

/-- Rust's `sort_by` is a stable sort; the comparator at lines 186-188 is
`partial_cmp` on the barycenter with an `Equal` fallback, i.e. the total
order on the (never-NaN) key.  A stable sort for a total key order is
uniquely determined, so it is modelled by stable insertion by the key. -/
def insertSorted (x : Nat × ℚ) : List (Nat × ℚ) → List (Nat × ℚ)
  | [] => [x]
  | y :: ys => if y.2 ≤ x.2 then y :: insertSorted x ys else x :: y :: ys

/-- Stable sort of `(node, barycenter)` pairs by barycenter ascending. -/
def sortByBary (l : List (Nat × ℚ)) : List (Nat × ℚ) :=
  l.foldl (fun acc x => insertSorted x acc) []

/-- Lines 134-158: the neighbors considered for the barycenter — incoming
neighbors of strictly smaller rank on the top-down pass (`pass = 0`),
outgoing neighbors of strictly larger rank on the bottom-up pass.  The
source reads the node's own rank with `.unwrap()`; a node outside the rank
map cannot reach this point, and the `none` match arm mirrors the filter
rejecting it. -/
def qualifying (g : Graph) (rank : Nat → Option Nat) (pass : Nat) (v : Nat) :
    List Nat :=
  if pass = 0 then
    (preds g v).filter (fun p =>
      match rank p, rank v with
      | some rp, some rv => decide (rp < rv)
      | _, _ => false)
  else
    (succs g v).filter (fun s =>
      match rank s, rank v with
      | some rs, some rv => decide (rv < rs)
      | _, _ => false)

/-- Lines 160-171: for each qualifying neighbor, its positional index inside
its rank's vector in the pre-reorder snapshot `copy`, when found. -/
def baryHits (g : Graph) (rank : Nat → Option Nat) (pass : Nat)
    (copy : Groups) (v : Nat) : List Nat :=
  (qualifying g rank pass v).filterMap (fun c =>
    (rank c).bind (fun rc =>
      (lookupG copy rc).bind (fun l => l.findIdx? (fun w => w = c))))

/-- Lines 173-180: the barycenter — mean of the neighbor positions, or the
node's own current index (`position(..).unwrap_or(0)`) when no position
contributed. -/
def baryOf (g : Graph) (rank : Nat → Option Nat) (pass : Nat)
    (copy : Groups) (current : List Nat) (v : Nat) : ℚ :=
  let hits := baryHits g rank pass copy v
  if hits.length > 0 then
    (hits.map (fun i => (i : ℚ))).sum / (hits.length : ℚ)
  else (((current.findIdx? (fun w => w = v)).getD 0 : Nat) : ℚ)

/-- Lines 127-191 for one rank: compute all barycenters against the
snapshot `copy`, stable-sort by them, keep the node order. -/
def reorderRank (g : Graph) (rank : Nat → Option Nat) (pass : Nat)
    (copy : Groups) (current : List Nat) : List Nat :=
  (sortByBary (current.map (fun v =>
    (v, baryOf g rank pass copy current v)))).map (fun p => p.1)

/-- Lines 113-193 for one rank of one pass: skip a missing rank or a rank
with at most one node, otherwise replace the rank's vector by its reordered
version (the clone at line 115 makes the pre-reorder state the snapshot). -/
def processRank (g : Graph) (rank : Nat → Option Nat) (pass : Nat)
    (gs : Groups) (r : Nat) : Groups :=
  match lookupG gs r with
  | none => gs
  | some current =>
    if current.length ≤ 1 then gs
    else updateG gs r (reorderRank g rank pass gs current)

/-- `order_nodes_within_layers` (petgraph.rs lines 90-197): group by rank,
then two passes — ranks ascending with predecessor barycenters, then ranks
descending with successor barycenters. -/
def order_nodes_within_layers (g : Graph) (rank : Nat → Option Nat)
    (enum : List (Nat × Nat)) : Groups :=
  let gs0 := groupByRank enum
  let maxR := maxKey gs0
  let gs1 := (List.range (maxR + 1)).foldl (processRank g rank 0) gs0
  (List.range (maxR + 1)).reverse.foldl (processRank g rank 1) gs1

/-- The nodes a rank-map enumeration assigns to rank `r`, in enumeration
order. -/
def rankGroup (enum : List (Nat × Nat)) (r : Nat) : List Nat :=
  (enum.filter (fun p => p.2 = r)).map (fun p => p.1)

/-! ### Grouping and update lemmas -/

theorem find?_fstmap {α : Type} (m : List (Nat × α)) (f : Nat × α → Nat × α)
    (hf : ∀ p, (f p).1 = p.1) (w : Nat) :
    List.find? (fun p => p.1 = w) (m.map f)
      = (List.find? (fun p => p.1 = w) m).map f := by
  rw [List.find?_map]
  have hpred : ((fun p : Nat × α => decide (p.1 = w)) ∘ f)
      = fun p : Nat × α => decide (p.1 = w) := by
    funext p
    simp [hf p]
  rw [hpred]

theorem getGroup_pushG_self (gs : Groups) (r v : Nat) :
    getGroup (pushG gs r v) r = getGroup gs r ++ [v] := by
  unfold pushG getGroup lookupG
  split
  · rename_i h
    rw [find?_fstmap _ _ (fun p => by split <;> rfl) r]
    obtain ⟨p, hp⟩ := Option.isSome_iff_exists.1 h
    rw [hp]
    have hpr := List.find?_some hp
    simp only [decide_eq_true_eq] at hpr
    simp [hpr]
  · rename_i h
    rw [List.find?_append]
    cases hf : List.find? (fun p => decide (p.1 = r)) gs with
    | none => simp [List.find?]
    | some p => rw [hf] at h; simp at h

theorem getGroup_pushG_other (gs : Groups) {r r' : Nat} (h : r' ≠ r) (v : Nat) :
    getGroup (pushG gs r v) r' = getGroup gs r' := by
  unfold pushG getGroup lookupG
  split
  · rw [find?_fstmap _ _ (fun p => by split <;> rfl) r']
    cases hf : List.find? (fun p => decide (p.1 = r')) gs with
    | none => simp
    | some p =>
      have hpr := List.find?_some hf
      simp only [decide_eq_true_eq] at hpr
      have : ¬ p.1 = r := by rw [hpr]; exact h
      simp [this]
  · rw [List.find?_append]
    have hd : (decide (r = r')) = false := decide_eq_false (Ne.symm h)
    have hnone : List.find? (fun p : Nat × List Nat => p.1 = r') [(r, [v])] = none := by
      simp [List.find?, hd]
    rw [hnone, Option.or_none]

theorem getGroup_groupByRankAux (l : List (Nat × Nat)) (r : Nat) :
    ∀ gs : Groups,
      getGroup (l.foldl (fun gs p => pushG gs p.2 p.1) gs) r
        = getGroup gs r ++ rankGroup l r := by
  induction l with
  | nil => intro gs; simp [rankGroup]
  | cons p l ih =>
    intro gs
    rw [List.foldl_cons, ih]
    by_cases hp : p.2 = r
    · rw [hp, getGroup_pushG_self]
      have : rankGroup (p :: l) r = p.1 :: rankGroup l r := by
        unfold rankGroup
        rw [List.filter_cons]
        simp [hp]
      rw [this, List.append_assoc]
      rfl
    · rw [getGroup_pushG_other gs (fun he => hp he.symm) p.1]
      have : rankGroup (p :: l) r = rankGroup l r := by
        unfold rankGroup
        rw [List.filter_cons]
        simp [hp]
      rw [this]

theorem getGroup_groupByRank (enum : List (Nat × Nat)) (r : Nat) :
    getGroup (groupByRank enum) r = rankGroup enum r := by
  unfold groupByRank
  rw [getGroup_groupByRankAux]
  rfl

theorem lookupG_updateG (gs : Groups) (r : Nat) (l : List Nat) (r' : Nat) :
    lookupG (updateG gs r l) r'
      = if r' = r then (lookupG gs r').map (fun _ => l) else lookupG gs r' := by
  unfold updateG lookupG
  rw [find?_fstmap _ _ (fun p => by split <;> rfl) r']
  by_cases h : r' = r
  · subst h
    cases hf : List.find? (fun p : Nat × List Nat => decide (p.1 = r')) gs with
    | none => simp
    | some p =>
      have hpr := List.find?_some hf
      simp only [decide_eq_true_eq] at hpr
      simp [hpr]
  · rw [if_neg h]
    cases hf : List.find? (fun p : Nat × List Nat => decide (p.1 = r')) gs with
    | none => simp
    | some p =>
      have hpr := List.find?_some hf
      simp only [decide_eq_true_eq] at hpr
      have : ¬ p.1 = r := by rw [hpr]; exact h
      simp [this]

/-! ### The stable sort: permutation, sortedness, stability -/

theorem insertSorted_perm (x : Nat × ℚ) (l : List (Nat × ℚ)) :
    (insertSorted x l).Perm (x :: l) := by
  induction l with
  | nil => exact List.Perm.refl _
  | cons y ys ih =>
    unfold insertSorted
    split
    · exact (ih.cons y).trans (List.Perm.swap x y ys)
    · exact List.Perm.refl _

theorem sortByBary_permAux (l : List (Nat × ℚ)) :
    ∀ acc : List (Nat × ℚ),
      (l.foldl (fun a x => insertSorted x a) acc).Perm (acc ++ l) := by
  induction l with
  | nil => intro acc; simp
  | cons x l ih =>
    intro acc
    rw [List.foldl_cons]
    refine (ih _).trans ?_
    exact ((insertSorted_perm x acc).append_right l).trans List.perm_middle.symm

theorem sortByBary_perm (l : List (Nat × ℚ)) : (sortByBary l).Perm l := by
  simpa using sortByBary_permAux l []

theorem reorderRank_perm (g : Graph) (rank : Nat → Option Nat) (pass : Nat)
    (copy : Groups) (current : List Nat) :
    (reorderRank g rank pass copy current).Perm current := by
  unfold reorderRank
  have h := (sortByBary_perm (current.map fun v =>
    (v, baryOf g rank pass copy current v))).map (fun p : Nat × ℚ => p.1)
  rw [List.map_map] at h
  have hid : current.map ((fun p : Nat × ℚ => p.1)
      ∘ fun v => (v, baryOf g rank pass copy current v)) = current := by
    have : ((fun p : Nat × ℚ => p.1)
        ∘ fun v => (v, baryOf g rank pass copy current v)) = fun v : Nat => v := rfl
    rw [this]
    simp
  rw [hid] at h
  exact h

theorem getGroup_processRank_perm (g : Graph) (rank : Nat → Option Nat)
    (pass : Nat) (gs : Groups) (r r' : Nat) :
    (getGroup (processRank g rank pass gs r) r').Perm (getGroup gs r') := by
  unfold processRank
  cases hg : lookupG gs r with
  | none => exact List.Perm.refl _
  | some current =>
    dsimp only
    split
    · exact List.Perm.refl _
    · by_cases h : r' = r
      · subst h
        have hup : getGroup (updateG gs r' (reorderRank g rank pass gs current)) r'
            = reorderRank g rank pass gs current := by
          unfold getGroup
          rw [lookupG_updateG, if_pos rfl, hg]
          rfl
        have hcur : getGroup gs r' = current := by
          unfold getGroup
          rw [hg]
          rfl
        rw [hup, hcur]
        exact reorderRank_perm g rank pass gs current
      · have hup : getGroup (updateG gs r (reorderRank g rank pass gs current)) r'
            = getGroup gs r' := by
          unfold getGroup
          rw [lookupG_updateG, if_neg h]
        rw [hup]

theorem getGroup_foldl_processRank_perm (g : Graph) (rank : Nat → Option Nat)
    (pass : Nat) (rs : List Nat) (gs : Groups) (r' : Nat) :
    (getGroup (rs.foldl (processRank g rank pass) gs) r').Perm (getGroup gs r') := by
  induction rs generalizing gs with
  | nil => exact List.Perm.refl _
  | cons r rs ih =>
    rw [List.foldl_cons]
    exact (ih _).trans (getGroup_processRank_perm g rank pass gs r r')

/-- C3: `order_nodes_within_layers` preserves the multiset of node ids at
each rank — for every rank `r`, the ordered layer it produces is a
permutation of exactly the nodes the rank map assigns to `r`; no node is
gained, lost, or moved to a different rank.  `enum` is the (arbitrary)
HashMap enumeration of the rank map's entries used by the grouping loop. -/
theorem order_nodes_preserves_layers (g : Graph) (ranks : RankMap)
    (enum : List (Nat × Nat)) (henum : enum.Perm ranks) (r : Nat) :
    (getGroup (order_nodes_within_layers g (lookupR ranks) enum) r).Perm
      ((ranks.filter (fun p => p.2 = r)).map (fun p => p.1)) := by
  unfold order_nodes_within_layers
  dsimp only
  have h1 := getGroup_foldl_processRank_perm g (lookupR ranks) 1
    ((List.range (maxKey (groupByRank enum) + 1)).reverse)
    ((List.range (maxKey (groupByRank enum) + 1)).foldl
      (processRank g (lookupR ranks) 0) (groupByRank enum)) r
  have h2 := getGroup_foldl_processRank_perm g (lookupR ranks) 0
    (List.range (maxKey (groupByRank enum) + 1)) (groupByRank enum) r
  have h3 : getGroup (groupByRank enum) r = rankGroup enum r :=
    getGroup_groupByRank enum r
  have h4 : (rankGroup enum r).Perm
      ((ranks.filter (fun p => p.2 = r)).map (fun p => p.1)) :=
    (henum.filter _).map _
  exact ((h1.trans h2).trans (h3 ▸ List.Perm.refl _)).trans h4

/-- Witness for C3: the diamond graph's rank map enumerated in an arbitrary
scrambled order, checked at rank 1. -/
theorem order_nodes_preserves_layers_witness :
    ([((3 : Nat), (2 : Nat)), (1, 1), (0, 0), (2, 1)].Perm
        (assign_layers (Graph.mk 4 [(0, 1), (0, 2), (1, 3), (2, 3)]) [0, 1, 2, 3])) ∧
      (getGroup (order_nodes_within_layers
          (Graph.mk 4 [(0, 1), (0, 2), (1, 3), (2, 3)])
          (lookupR (assign_layers (Graph.mk 4 [(0, 1), (0, 2), (1, 3), (2, 3)]) [0, 1, 2, 3]))
          [(3, 2), (1, 1), (0, 0), (2, 1)]) 1).Perm
        (((assign_layers (Graph.mk 4 [(0, 1), (0, 2), (1, 3), (2, 3)]) [0, 1, 2, 3]).filter
          (fun p => p.2 = 1)).map (fun p => p.1)) :=
  ⟨by decide,
    order_nodes_preserves_layers _ _ [(3, 2), (1, 1), (0, 0), (2, 1)] (by decide) 1⟩

/-! ### Sortedness and stability of the barycenter sort -/

theorem mem_insertSorted {z x : Nat × ℚ} {l : List (Nat × ℚ)}
    (hz : z ∈ insertSorted x l) : z = x ∨ z ∈ l :=
  List.mem_cons.1 ((insertSorted_perm x l).mem_iff.1 hz)

theorem keySorted_insertSorted {l : List (Nat × ℚ)}
    (hs : l.Pairwise (fun a b => a.2 ≤ b.2)) (x : Nat × ℚ) :
    (insertSorted x l).Pairwise (fun a b => a.2 ≤ b.2) := by
  induction l with
  | nil => simp [insertSorted]
  | cons y ys ih =>
    rcases List.pairwise_cons.1 hs with ⟨hy, hys⟩
    unfold insertSorted
    split
    · rename_i hle
      refine List.pairwise_cons.2 ⟨?_, ih hys⟩
      intro z hz
      rcases mem_insertSorted hz with he | hm
      · rw [he]; exact hle
      · exact hy z hm
    · rename_i hgt
      push_neg at hgt
      refine List.pairwise_cons.2 ⟨?_, hs⟩
      intro z hz
      rcases List.mem_cons.1 hz with he | hm
      · rw [he]; exact le_of_lt hgt
      · exact le_trans (le_of_lt hgt) (hy z hm)

theorem keySorted_sortByBaryAux (l : List (Nat × ℚ)) :
    ∀ acc : List (Nat × ℚ), acc.Pairwise (fun a b => a.2 ≤ b.2) →
      (l.foldl (fun a x => insertSorted x a) acc).Pairwise (fun a b => a.2 ≤ b.2) := by
  induction l with
  | nil => exact fun acc h => h
  | cons x l ih =>
    intro acc hacc
    rw [List.foldl_cons]
    exact ih _ (keySorted_insertSorted hacc x)

theorem keySorted_sortByBary (l : List (Nat × ℚ)) :
    (sortByBary l).Pairwise (fun a b => a.2 ≤ b.2) :=
  keySorted_sortByBaryAux l [] (List.Pairwise.nil)

theorem filter_insertSorted (q : ℚ) (x : Nat × ℚ) {l : List (Nat × ℚ)}
    (hs : l.Pairwise (fun a b => a.2 ≤ b.2)) :
    (insertSorted x l).filter (fun p => p.2 = q)
      = if x.2 = q then l.filter (fun p => p.2 = q) ++ [x]
        else l.filter (fun p => p.2 = q) := by
  induction l with
  | nil =>
    by_cases hx : x.2 = q <;> simp [insertSorted, List.filter, hx]
  | cons y ys ih =>
    rcases List.pairwise_cons.1 hs with ⟨hy, hys⟩
    unfold insertSorted
    split
    · rename_i hle
      rw [List.filter_cons, ih hys]
      by_cases hyq : y.2 = q <;> by_cases hxq : x.2 = q <;>
        simp [hyq, hxq, List.filter_cons]
    · rename_i hgt
      push_neg at hgt
      by_cases hxq : x.2 = q
      · have hnil : (y :: ys).filter (fun p => p.2 = q) = [] := by
          rw [List.filter_eq_nil_iff]
          intro z hz
          have hzge : y.2 ≤ z.2 := by
            rcases List.mem_cons.1 hz with he | hm
            · rw [he]
            · exact hy z hm
          simp only [decide_eq_true_eq]
          intro hzq
          rw [hzq, ← hxq] at hzge
          exact absurd (lt_of_lt_of_le hgt hzge) (lt_irrefl _)
        rw [List.filter_cons, hnil]
        simp [hxq]
      · rw [List.filter_cons]
        simp [hxq]

theorem filter_sortByBaryAux (q : ℚ) (l : List (Nat × ℚ)) :
    ∀ acc : List (Nat × ℚ), acc.Pairwise (fun a b => a.2 ≤ b.2) →
      (l.foldl (fun a x => insertSorted x a) acc).filter (fun p => p.2 = q)
        = acc.filter (fun p => p.2 = q) ++ l.filter (fun p => p.2 = q) := by
  induction l with
  | nil => intro acc _; simp
  | cons x l ih =>
    intro acc hacc
    rw [List.foldl_cons, ih _ (keySorted_insertSorted hacc x),
      filter_insertSorted q x hacc, List.filter_cons]
    by_cases hxq : x.2 = q <;> simp [hxq]

theorem filter_sortByBary (q : ℚ) (l : List (Nat × ℚ)) :
    (sortByBary l).filter (fun p => p.2 = q) = l.filter (fun p => p.2 = q) := by
  have h := filter_sortByBaryAux q l [] (List.Pairwise.nil)
  simpa using h

theorem findIdx?_self_of_nodup :
    ∀ {l : List Nat}, l.Nodup → ∀ {i : Nat} (hi : i < l.length) (s : Nat),
      l.findIdx? (fun w => w = l[i]) s = some (s + i) := by
  intro l
  induction l with
  | nil => intro _ i hi _; cases hi
  | cons x xs ih =>
    intro hnd i hi s
    rcases List.nodup_cons.1 hnd with ⟨hx, hxs⟩
    cases i with
    | zero => simp [List.findIdx?_cons]
    | succ j =>
      have hj : j < xs.length := Nat.lt_of_succ_lt_succ hi
      have hne : x ≠ xs[j] := fun he => hx (he ▸ List.getElem_mem hj)
      have hget : (x :: xs)[j + 1] = xs[j] := by simp
      rw [List.findIdx?_cons, hget]
      rw [if_neg (by simpa using hne)]
      rw [ih hxs hj (s + 1)]
      congr 1
      omega

/-- C4: one rank's reorder step, as used by both barycenter passes on every
rank with at least two nodes: (i) a node whose qualifying-neighbor list is
empty gets a barycenter equal to its own current index in the rank; (ii) the
new order is a permutation of the old one, (iii) sorted by barycenter
ascending, and (iv) stable — for every barycenter value, the nodes carrying
it appear in the same relative order as before. -/
theorem reorderRank_spec (g : Graph) (rank : Nat → Option Nat) (pass : Nat)
    (copy : Groups) (current : List Nat) (h2 : 2 ≤ current.length)
    (hnd : current.Nodup) :
    (∀ i, (hi : i < current.length) →
        qualifying g rank pass current[i] = [] →
        baryOf g rank pass copy current current[i] = (i : ℚ)) ∧
      (reorderRank g rank pass copy current).Perm current ∧
      (reorderRank g rank pass copy current).Pairwise
        (fun u w => baryOf g rank pass copy current u
          ≤ baryOf g rank pass copy current w) ∧
      ∀ q : ℚ, (reorderRank g rank pass copy current).filter
          (fun v => baryOf g rank pass copy current v = q)
        = current.filter (fun v => baryOf g rank pass copy current v = q) := by
  have hpairfact : ∀ p ∈ sortByBary (current.map (fun v =>
      (v, baryOf g rank pass copy current v))), p.2 = baryOf g rank pass copy current p.1 := by
    intro p hp
    have hmem := (sortByBary_perm _).mem_iff.1 hp
    rcases List.mem_map.1 hmem with ⟨v, -, hv⟩
    rw [← hv]
  refine ⟨?_, reorderRank_perm g rank pass copy current, ?_, ?_⟩
  · intro i hi hq
    unfold baryOf
    have hhits : baryHits g rank pass copy current[i] = [] := by
      unfold baryHits
      rw [hq]
      rfl
    rw [hhits]
    simp only [List.length_nil, gt_iff_lt, lt_irrefl, if_false]
    rw [findIdx?_self_of_nodup hnd hi 0]
    simp
  · unfold reorderRank
    rw [List.pairwise_map]
    refine (keySorted_sortByBary _).imp_of_mem ?_
    intro a c ha hc h
    rw [← hpairfact a ha, ← hpairfact c hc]
    exact h
  · intro q
    unfold reorderRank
    rw [List.map_filter]
    have hinner : (sortByBary (current.map (fun v =>
        (v, baryOf g rank pass copy current v)))).filter
          ((fun v => decide (baryOf g rank pass copy current v = q))
            ∘ fun p : Nat × ℚ => p.1)
        = (sortByBary (current.map (fun v =>
            (v, baryOf g rank pass copy current v)))).filter (fun p => p.2 = q) := by
      refine List.filter_congr ?_
      intro p hp
      simp only [Function.comp_apply]
      rw [hpairfact p hp]
    rw [hinner, filter_sortByBary, List.map_filter]
    have houter : (current.filter ((fun p : Nat × ℚ => decide (p.2 = q))
          ∘ fun v => (v, baryOf g rank pass copy current v))).map
          ((fun p : Nat × ℚ => p.1) ∘ fun v => (v, baryOf g rank pass copy current v))
        = current.filter (fun v => baryOf g rank pass copy current v = q) := by
      have hc1 : ((fun p : Nat × ℚ => decide (p.2 = q))
          ∘ fun v => (v, baryOf g rank pass copy current v))
          = fun v => decide (baryOf g rank pass copy current v = q) := rfl
      have hc2 : ((fun p : Nat × ℚ => p.1)
          ∘ fun v => (v, baryOf g rank pass copy current v)) = fun v : Nat => v := rfl
      rw [hc1, hc2]
      simp
    rw [← houter, List.map_map]

/-- Witness for C4: the diamond graph's rank-1 layer `[1, 2]` during the
top-down pass (both nodes have node 0 as qualifying neighbor; node ids `5`
would have none, but the fallback clause is checked vacuously here through a
rank function making `[1, 2]` neighbor-free). -/
theorem reorderRank_spec_witness :
    (2 ≤ ([1, 2] : List Nat).length) ∧ ([1, 2] : List Nat).Nodup ∧
      ((∀ i, (hi : i < ([1, 2] : List Nat).length) →
          qualifying (Graph.mk 4 [(0, 1), (0, 2), (1, 3), (2, 3)]) (fun _ => none) 0
            (([1, 2] : List Nat)[i]) = [] →
          baryOf (Graph.mk 4 [(0, 1), (0, 2), (1, 3), (2, 3)]) (fun _ => none) 0
            [(0, [0]), (1, [1, 2]), (2, [3])] [1, 2] (([1, 2] : List Nat)[i]) = (i : ℚ)) ∧
        (reorderRank (Graph.mk 4 [(0, 1), (0, 2), (1, 3), (2, 3)]) (fun _ => none) 0
          [(0, [0]), (1, [1, 2]), (2, [3])] [1, 2]).Perm [1, 2] ∧
        (reorderRank (Graph.mk 4 [(0, 1), (0, 2), (1, 3), (2, 3)]) (fun _ => none) 0
          [(0, [0]), (1, [1, 2]), (2, [3])] [1, 2]).Pairwise
          (fun u w => baryOf (Graph.mk 4 [(0, 1), (0, 2), (1, 3), (2, 3)]) (fun _ => none) 0
            [(0, [0]), (1, [1, 2]), (2, [3])] [1, 2] u
            ≤ baryOf (Graph.mk 4 [(0, 1), (0, 2), (1, 3), (2, 3)]) (fun _ => none) 0
              [(0, [0]), (1, [1, 2]), (2, [3])] [1, 2] w) ∧
        ∀ q : ℚ, (reorderRank (Graph.mk 4 [(0, 1), (0, 2), (1, 3), (2, 3)]) (fun _ => none) 0
            [(0, [0]), (1, [1, 2]), (2, [3])] [1, 2]).filter
            (fun v => baryOf (Graph.mk 4 [(0, 1), (0, 2), (1, 3), (2, 3)]) (fun _ => none) 0
              [(0, [0]), (1, [1, 2]), (2, [3])] [1, 2] v = q)
          = ([1, 2] : List Nat).filter
            (fun v => baryOf (Graph.mk 4 [(0, 1), (0, 2), (1, 3), (2, 3)]) (fun _ => none) 0
              [(0, [0]), (1, [1, 2]), (2, [3])] [1, 2] v = q)) :=
  ⟨by decide, by decide,
    reorderRank_spec (Graph.mk 4 [(0, 1), (0, 2), (1, 3), (2, 3)]) (fun _ => none) 0
      [(0, [0]), (1, [1, 2]), (2, [3])] [1, 2] (by decide) (by decide)⟩

/-! ## `assign_coordinates` (petgraph.rs lines 200-252) and
`adjust_positions` (lines 255-272)

The layout constants are hardcoded at lines 207-213, with
`is_horizontal = true` (the LR branch).  The layout `HashMap` is only ever
inserted into with fresh keys and then read, so it is modelled as an
append-only association list read through a last-binding-wins lookup.
`0.1` is modelled as the rational `1/10`; the claims checked here only
inspect `y`, which the nudge never touches. -/

/-- `NodeLayout` (petgraph.rs lines 11-16). -/
structure NodeLayout where
  x : ℚ
  y : ℚ
  width : ℚ
  height : ℚ
deriving DecidableEq, Repr

def horizontal_spacing : ℚ := 180
def vertical_spacing : ℚ := 150
def node_width : ℚ := 180
def node_height : ℚ := 60
def is_horizontal : Bool := true

/-- `HashMap<NodeIndex, NodeLayout>`, append-only. -/
abbrev Layout : Type := List (Nat × NodeLayout)

/-- `layout.get(&v)` — the most recent insertion wins, as for a HashMap. -/
def lookupL (m : Layout) (v : Nat) : Option NodeLayout :=
  (List.find? (fun p => p.1 = v) m.reverse).map (fun p => p.2)

/-- Lines 216-246, one node: `count` is the rank's node count, `i` the
node's index in the ordered layer, `r` the rank. -/
def coordsForNode (r count i : Nat) : NodeLayout :=
  let total := (count : ℚ) * (node_width + horizontal_spacing) - horizontal_spacing
  let start := -total / 2
  if is_horizontal then
    { x := (r : ℚ) * (node_width + vertical_spacing)
      y := start + (i : ℚ) * (node_width + horizontal_spacing) + node_width / 2
      width := node_width
      height := node_height }
  else
    { x := start + (i : ℚ) * (node_width + horizontal_spacing) + node_width / 2
      y := (r : ℚ) * (node_height + vertical_spacing)
      width := node_width
      height := node_height }

/-- The insertion loops of lines 216-246: iterating a rank's vector with
`enumerate` and inserting one `NodeLayout` per node appends the block of the
rank's entries. -/
def buildLayout (gs : Groups) : Layout :=
  gs.foldl (fun layout entry =>
    layout ++ entry.2.enum.map (fun p => (p.2, coordsForNode entry.1 entry.2.length p.1))) []

/-- `adjust_positions` (lines 255-272): every node's `x` is nudged by
`(node.index() % 5) as f64 * 0.1`; `y` is untouched. -/
def adjust_positions (layout : Layout) : Layout :=
  layout.map (fun p =>
    (p.1, { p.2 with x := p.2.x + ((p.1 % 5 : Nat) : ℚ) * (1 / 10) }))

/-- `assign_coordinates` (lines 200-252): build the per-rank coordinates,
then apply the positional nudge pass (line 249). -/
def assign_coordinates (gs : Groups) : Layout :=
  adjust_positions (buildLayout gs)

/-! ### Layout lookup lemmas -/

theorem lookupL_append (A B : Layout) (v : Nat) :
    lookupL (A ++ B) v = (lookupL B v).or (lookupL A v) := by
  unfold lookupL
  rw [List.reverse_append, List.find?_append, Option.map_or']

theorem lookupL_none_of_keys {A : Layout} {v : Nat} (h : ∀ p ∈ A, p.1 ≠ v) :
    lookupL A v = none := by
  unfold lookupL
  rw [List.find?_eq_none.2]
  · rfl
  · intro p hp
    simp only [decide_eq_true_eq]
    exact h p (List.mem_reverse.1 hp)

theorem lookupL_blockAux (r cnt : Nat) (A : List Nat) (v : Nat) (B : List Nat)
    (hv : v ∉ B) :
    lookupL ((A ++ v :: B).enum.map (fun p => (p.2, coordsForNode r cnt p.1))) v
      = some (coordsForNode r cnt A.length) := by
  have hsingle : A ++ v :: B = (A ++ [v]) ++ B := by simp
  rw [hsingle, List.enum_append, List.enum_append, List.map_append, List.map_append,
    lookupL_append, lookupL_append]
  have hB : lookupL ((B.enumFrom (A ++ [v]).length).map
      (fun p => (p.2, coordsForNode r cnt p.1))) v = none := by
    refine lookupL_none_of_keys ?_
    intro q hq
    rcases List.mem_map.1 hq with ⟨p, hp, hpq⟩
    rw [← hpq]
    intro he
    exact hv (he ▸ List.snd_mem_of_mem_enumFrom hp)
  have hv1 : lookupL (([v].enumFrom A.length).map
      (fun p => (p.2, coordsForNode r cnt p.1))) v
      = some (coordsForNode r cnt A.length) := by
    unfold lookupL
    simp [List.enumFrom, List.find?]
  rw [hB, hv1]
  rfl

theorem buildLayout_shift (gs : Groups) (init : Layout) :
    gs.foldl (fun layout entry =>
        layout ++ entry.2.enum.map
          (fun p => (p.2, coordsForNode entry.1 entry.2.length p.1))) init
      = init ++ buildLayout gs := by
  induction gs generalizing init with
  | nil => simp [buildLayout]
  | cons e gs ih =>
    have h2 : buildLayout (e :: gs)
        = e.2.enum.map (fun p => (p.2, coordsForNode e.1 e.2.length p.1))
          ++ buildLayout gs := by
      unfold buildLayout
      rw [List.foldl_cons, List.nil_append]
      exact ih _
    rw [List.foldl_cons, ih, h2, List.append_assoc]

theorem buildLayout_decomp (pre post : Groups) (x : Nat × List Nat) :
    buildLayout (pre ++ x :: post)
      = buildLayout pre
        ++ (x.2.enum.map (fun p => (p.2, coordsForNode x.1 x.2.length p.1))
          ++ buildLayout post) := by
  unfold buildLayout
  rw [List.foldl_append, List.foldl_cons, buildLayout_shift, buildLayout_shift]
  unfold buildLayout
  simp

theorem keys_buildLayout {post : Groups} {q : Nat × NodeLayout}
    (hq : q ∈ buildLayout post) : ∃ e ∈ post, q.1 ∈ e.2 := by
  induction post with
  | nil => cases hq
  | cons e post ih =>
    have hdec := buildLayout_decomp [] post e
    simp only [List.nil_append] at hdec
    rw [hdec] at hq
    have hpre : buildLayout ([] : Groups) = [] := rfl
    rw [hpre, List.nil_append] at hq
    rcases List.mem_append.1 hq with h | h
    · rcases List.mem_map.1 h with ⟨p, hp, hpq⟩
      exact ⟨e, List.mem_cons_self e post, by
        rw [← hpq]
        exact List.snd_mem_of_mem_enum hp⟩
    · rcases ih h with ⟨e', he', hm⟩
      exact ⟨e', List.mem_cons_of_mem e he', hm⟩

theorem lookupL_buildLayout_none {post : Groups} {v : Nat}
    (hpost : ∀ e ∈ post, v ∉ e.2) : lookupL (buildLayout post) v = none := by
  refine lookupL_none_of_keys ?_
  intro q hq he
  rcases keys_buildLayout hq with ⟨e, hmem, hk⟩
  exact hpost e hmem (he ▸ hk)

theorem lookupL_buildLayout (pre post : Groups) (r : Nat) (nodes : List Nat)
    {k v : Nat} (hk : k < nodes.length) (hv : nodes[k] = v)
    (hafter : v ∉ nodes.drop (k + 1)) (hpost : ∀ e ∈ post, v ∉ e.2) :
    lookupL (buildLayout (pre ++ (r, nodes) :: post)) v
      = some (coordsForNode r nodes.length k) := by
  have hdecomp : nodes.take k ++ v :: nodes.drop (k + 1) = nodes := by
    conv_rhs => rw [← List.take_append_drop k nodes]
    rw [← List.get_drop_eq_drop nodes k hk, hv]
  have hlen : (nodes.take k).length = k := by
    rw [List.length_take]
    exact Nat.min_eq_left (le_of_lt hk)
  rw [buildLayout_decomp, lookupL_append, lookupL_append,
    lookupL_buildLayout_none hpost]
  set cnt := nodes.length with hcnt
  have hblock : lookupL (nodes.enum.map
      (fun p => (p.2, coordsForNode r cnt p.1))) v
      = some (coordsForNode r cnt k) := by
    conv_lhs => rw [← hdecomp]
    rw [lookupL_blockAux r cnt (nodes.take k) v (nodes.drop (k + 1)) hafter, hlen]
  rw [hblock]
  rfl

theorem lookupL_adjust (m : Layout) (v : Nat) :
    lookupL (adjust_positions m) v
      = (lookupL m v).map
          (fun L => { L with x := L.x + ((v % 5 : Nat) : ℚ) * (1 / 10) }) := by
  unfold adjust_positions lookupL
  rw [← List.map_reverse,
    find?_fstmap m.reverse
      (fun p => (p.1, { p.2 with x := p.2.x + ((p.1 % 5 : Nat) : ℚ) * (1 / 10) }))
      (fun p => rfl) v]
  cases hf : List.find? (fun p : Nat × NodeLayout => decide (p.1 = v)) m.reverse with
  | none => rfl
  | some p =>
    have hpv := List.find?_some hf
    simp only [decide_eq_true_eq] at hpv
    simp [hpv]

theorem nodup_getElem_not_mem_drop {l : List Nat} (hnd : l.Nodup) {k : Nat}
    (hk : k < l.length) : l[k] ∉ l.drop (k + 1) := by
  intro hmem
  have hdecomp : l.take k ++ l[k] :: l.drop (k + 1) = l := by
    conv_rhs => rw [← List.take_append_drop k l]
    rw [← List.get_drop_eq_drop l k hk]
  have hnd2 := hnd
  rw [← hdecomp] at hnd2
  rcases List.nodup_append.1 hnd2 with ⟨-, hcons, -⟩
  exact (List.nodup_cons.1 hcons).1 hmem

theorem coordsForNode_y (r cnt k : Nat) :
    (coordsForNode r cnt k).y
      = -((cnt : ℚ) * (node_width + horizontal_spacing) - horizontal_spacing) / 2
        + (k : ℚ) * (node_width + horizontal_spacing) + node_width / 2 := by
  unfold coordsForNode
  simp [is_horizontal]

/-- C5: in the final output of the coordinate stage (positional nudge
included), any rank's consecutive nodes have within-rank coordinates (`y`,
under the hardcoded LR orientation) differing by exactly
`node_width + horizontal_spacing`, and the rank is centered: its first
node's `y` is `-(n * (size + spacing) - spacing) / 2 + size / 2`. -/
theorem assign_coordinates_spacing (pre post : Groups) (r : Nat)
    (nodes : List Nat) (hnd : nodes.Nodup)
    (hpost : ∀ e ∈ post, ∀ v ∈ nodes, v ∉ e.2)
    (i : Nat) (hi : i + 1 < nodes.length) :
    ∃ L₀ Li Lj,
      lookupL (assign_coordinates (pre ++ (r, nodes) :: post)) nodes[0] = some L₀ ∧
      lookupL (assign_coordinates (pre ++ (r, nodes) :: post)) nodes[i] = some Li ∧
      lookupL (assign_coordinates (pre ++ (r, nodes) :: post)) nodes[i + 1] = some Lj ∧
      Lj.y - Li.y = node_width + horizontal_spacing ∧
      L₀.y = -((nodes.length : ℚ) * (node_width + horizontal_spacing)
          - horizontal_spacing) / 2 + node_width / 2 := by
  have h0 : 0 < nodes.length := by omega
  have hii : i < nodes.length := by omega
  have hbuild : ∀ k, (hk : k < nodes.length) →
      lookupL (assign_coordinates (pre ++ (r, nodes) :: post)) nodes[k]
        = some ({ coordsForNode r nodes.length k with
            x := (coordsForNode r nodes.length k).x
              + ((nodes[k] % 5 : Nat) : ℚ) * (1 / 10) }) := by
    intro k hk
    unfold assign_coordinates
    rw [lookupL_adjust,
      lookupL_buildLayout pre post r nodes hk rfl
        (nodup_getElem_not_mem_drop hnd hk)
        (fun e he => hpost e he _ (List.getElem_mem hk))]
    rfl
  refine ⟨_, _, _, hbuild 0 h0, hbuild i hii, hbuild (i + 1) hi, ?_, ?_⟩
  · show (coordsForNode r nodes.length (i + 1)).y
        - (coordsForNode r nodes.length i).y = node_width + horizontal_spacing
    rw [coordsForNode_y, coordsForNode_y]
    push_cast
    ring
  · show (coordsForNode r nodes.length 0).y
        = -((nodes.length : ℚ) * (node_width + horizontal_spacing)
            - horizontal_spacing) / 2 + node_width / 2
    rw [coordsForNode_y]
    push_cast
    ring

/-- Witness for C5: the diamond layout's rank-1 layer `[1, 2]` between the
rank-0 and rank-2 layers, at `i = 0`. -/
theorem assign_coordinates_spacing_witness :
    ([1, 2] : List Nat).Nodup ∧
      (∀ e ∈ [((2 : Nat), [3])], ∀ v ∈ ([1, 2] : List Nat), v ∉ e.2) ∧
      (0 + 1 < ([1, 2] : List Nat).length) ∧
      (∃ L₀ Li Lj,
        lookupL (assign_coordinates ([(0, [0])] ++ (1, [1, 2]) :: [(2, [3])]))
          (([1, 2] : List Nat)[0]) = some L₀ ∧
        lookupL (assign_coordinates ([(0, [0])] ++ (1, [1, 2]) :: [(2, [3])]))
          (([1, 2] : List Nat)[0]) = some Li ∧
        lookupL (assign_coordinates ([(0, [0])] ++ (1, [1, 2]) :: [(2, [3])]))
          (([1, 2] : List Nat)[0 + 1]) = some Lj ∧
        Lj.y - Li.y = node_width + horizontal_spacing ∧
        L₀.y = -((([1, 2] : List Nat).length : ℚ)
            * (node_width + horizontal_spacing) - horizontal_spacing) / 2
          + node_width / 2) :=
  ⟨by decide, by decide, by decide,
    assign_coordinates_spacing [(0, [0])] [(2, [3])] 1 [1, 2] (by decide)
      (by decide) 0 (by decide)⟩

/-! ## Edge routing (sugiyama.rs lines 589-617)

For every edge whose endpoints both carry coordinates, the code sets
`points = [start, midpoint, end]` and
`curve_factor = (distance / 500.0).min(0.5).max(0.1)` where `distance` is
the euclidean distance between the endpoint centers.  The square root makes
the curvature a real number (the only place `ℝ` is needed). -/

/-- The 3-point path of lines 602-610. -/
def routePoints (s t : ℚ × ℚ) : List (ℚ × ℚ) :=
  [s, ((s.1 + t.1) / 2, (s.2 + t.2) / 2), t]

/-- `(tx - sx).powi(2) + (ty - sy).powi(2)` (line 613). -/
def distSq (s t : ℚ × ℚ) : ℚ :=
  (t.1 - s.1) ^ 2 + (t.2 - s.2) ^ 2

/-- `(distance / 500.0).min(0.5).max(0.1)` (lines 613-614). -/
noncomputable def curveFactor (s t : ℚ × ℚ) : ℝ :=
  max (min (Real.sqrt ((distSq s t : ℚ) : ℝ) / 500) (1 / 2)) (1 / 10)

/-- Lines 598-615 for one edge: the `if let (Some(sx), Some(sy), Some(tx),
Some(ty))` guard — the points are only overwritten when both endpoint nodes
have assigned coordinates. -/
def routeEdgePoints (src tgt : Option (ℚ × ℚ))
    (old : Option (List (ℚ × ℚ))) : Option (List (ℚ × ℚ)) :=
  match src, tgt with
  | some s, some t => some (routePoints s t)
  | _, _ => old

/-- The curvature side of the same guarded update. -/
noncomputable def routeEdgeCurve (src tgt : Option (ℚ × ℚ))
    (old : Option ℝ) : Option ℝ :=
  match src, tgt with
  | some s, some t => some (curveFactor s t)
  | _, _ => old

/-- The clamp the spec describes: `clamp(x, lo, hi)`. -/
noncomputable def specClamp (x lo hi : ℝ) : ℝ := min (max x lo) hi

theorem max_min_eq_specClamp {x lo hi : ℝ} (h : lo ≤ hi) :
    max (min x hi) lo = specClamp x lo hi := by
  unfold specClamp
  rcases le_total x lo with hxlo | hxlo
  · rw [min_eq_left (le_trans hxlo h), max_eq_right hxlo, min_eq_left h]
  · rcases le_total x hi with hxhi | hxhi
    · rw [min_eq_left hxhi, max_eq_left hxlo, min_eq_left hxhi]
    · rw [min_eq_right hxhi, max_eq_left h, max_eq_left (le_trans h hxhi),
        min_eq_right hxhi]

/-- C6: whenever both endpoint nodes have assigned coordinates, the router
produces exactly the 3-point path `[source center, midpoint, target
center]`, and a curvature factor equal to
`clamp(euclidean distance / 500, 0.1, 0.5)`, which always lies in
`[0.1, 0.5]`. -/
theorem routeEdge_spec (src tgt : Option (ℚ × ℚ)) (old : Option (List (ℚ × ℚ)))
    (oldc : Option ℝ) {s t : ℚ × ℚ} (hs : src = some s) (ht : tgt = some t) :
    routeEdgePoints src tgt old
        = some [s, ((s.1 + t.1) / 2, (s.2 + t.2) / 2), t] ∧
      (routePoints s t).length = 3 ∧
      routeEdgeCurve src tgt oldc = some (curveFactor s t) ∧
      curveFactor s t
        = specClamp (Real.sqrt ((distSq s t : ℚ) : ℝ) / 500) (1 / 10) (1 / 2) ∧
      (1 : ℝ) / 10 ≤ curveFactor s t ∧ curveFactor s t ≤ 1 / 2 := by
  subst hs
  subst ht
  refine ⟨rfl, rfl, rfl, ?_, ?_, ?_⟩
  · exact max_min_eq_specClamp (by norm_num)
  · exact le_max_right _ _
  · exact max_le (min_le_right _ _) (by norm_num)

/-- Witness for C6: the segment from `(0, 0)` to `(3, 4)`. -/
theorem routeEdge_spec_witness :
    routeEdgePoints (some ((0 : ℚ), (0 : ℚ))) (some ((3 : ℚ), (4 : ℚ))) none
        = some [((0 : ℚ), (0 : ℚ)), ((3 / 2 : ℚ), (2 : ℚ)), ((3 : ℚ), (4 : ℚ))] ∧
      (routePoints ((0 : ℚ), (0 : ℚ)) ((3 : ℚ), (4 : ℚ))).length = 3 ∧
      routeEdgeCurve (some ((0 : ℚ), (0 : ℚ))) (some ((3 : ℚ), (4 : ℚ))) none
        = some (curveFactor ((0 : ℚ), (0 : ℚ)) ((3 : ℚ), (4 : ℚ))) ∧
      curveFactor ((0 : ℚ), (0 : ℚ)) ((3 : ℚ), (4 : ℚ))
        = specClamp (Real.sqrt ((distSq ((0 : ℚ), (0 : ℚ)) ((3 : ℚ), (4 : ℚ)) : ℚ) : ℝ) / 500)
            (1 / 10) (1 / 2) ∧
      (1 : ℝ) / 10 ≤ curveFactor ((0 : ℚ), (0 : ℚ)) ((3 : ℚ), (4 : ℚ)) ∧
      curveFactor ((0 : ℚ), (0 : ℚ)) ((3 : ℚ), (4 : ℚ)) ≤ 1 / 2 := by
  have h := routeEdge_spec (some ((0 : ℚ), (0 : ℚ))) (some ((3 : ℚ), (4 : ℚ)))
    none none rfl rfl
  refine ⟨?_, h.2.1, h.2.2.1, h.2.2.2.1, h.2.2.2.2.1, h.2.2.2.2.2⟩
  rw [h.1]
  norm_num

/-! ## `calculate_node_border_intersection` (sugiyama.rs lines 989-1073)

The parametric `t` for a side is computed only when the corresponding
direction component is non-zero; otherwise the source sets it to
`f64::INFINITY`, which can never pass the `t <= 1.0` check, so the side
simply contributes no candidate.  Candidates are collected in the fixed
order left, right, top, bottom, sorted by `t` with a stable `sort_by`, and
the head is returned; with no candidate the node's center is returned. -/

/-- Stable insertion by a rational key (the generic form of the stable
`sort_by`). -/
def insertByKey {α : Type} (key : α → ℚ) (x : α) : List α → List α
  | [] => [x]
  | y :: ys => if key y ≤ key x then y :: insertByKey key x ys else x :: y :: ys

/-- Stable sort by a rational key. -/
def sortByKey {α : Type} (key : α → ℚ) (l : List α) : List α :=
  l.foldl (fun acc x => insertByKey key x acc) []

theorem insertByKey_perm {α : Type} (key : α → ℚ) (x : α) (l : List α) :
    (insertByKey key x l).Perm (x :: l) := by
  induction l with
  | nil => exact List.Perm.refl _
  | cons y ys ih =>
    unfold insertByKey
    split
    · exact (ih.cons y).trans (List.Perm.swap x y ys)
    · exact List.Perm.refl _

theorem sortByKey_permAux {α : Type} (key : α → ℚ) (l : List α) :
    ∀ acc : List α,
      (l.foldl (fun a x => insertByKey key x a) acc).Perm (acc ++ l) := by
  induction l with
  | nil => intro acc; simp
  | cons x l ih =>
    intro acc
    rw [List.foldl_cons]
    refine (ih _).trans ?_
    exact ((insertByKey_perm key x acc).append_right l).trans List.perm_middle.symm

theorem sortByKey_perm {α : Type} (key : α → ℚ) (l : List α) :
    (sortByKey key l).Perm l := by
  simpa using sortByKey_permAux key l []

theorem mem_insertByKey {α : Type} {key : α → ℚ} {z x : α} {l : List α}
    (hz : z ∈ insertByKey key x l) : z = x ∨ z ∈ l :=
  List.mem_cons.1 ((insertByKey_perm key x l).mem_iff.1 hz)

theorem sorted_insertByKey {α : Type} (key : α → ℚ) {l : List α}
    (hs : l.Pairwise (fun a b => key a ≤ key b)) (x : α) :
    (insertByKey key x l).Pairwise (fun a b => key a ≤ key b) := by
  induction l with
  | nil => simp [insertByKey]
  | cons y ys ih =>
    rcases List.pairwise_cons.1 hs with ⟨hy, hys⟩
    unfold insertByKey
    split
    · rename_i hle
      refine List.pairwise_cons.2 ⟨?_, ih hys⟩
      intro z hz
      rcases mem_insertByKey hz with he | hm
      · rw [he]; exact hle
      · exact hy z hm
    · rename_i hgt
      push_neg at hgt
      refine List.pairwise_cons.2 ⟨?_, hs⟩
      intro z hz
      rcases List.mem_cons.1 hz with he | hm
      · rw [he]; exact le_of_lt hgt
      · exact le_trans (le_of_lt hgt) (hy z hm)

theorem sorted_sortByKeyAux {α : Type} (key : α → ℚ) (l : List α) :
    ∀ acc : List α, acc.Pairwise (fun a b => key a ≤ key b) →
      (l.foldl (fun a x => insertByKey key x a) acc).Pairwise
        (fun a b => key a ≤ key b) := by
  induction l with
  | nil => exact fun acc h => h
  | cons x l ih =>
    intro acc hacc
    rw [List.foldl_cons]
    exact ih _ (sorted_insertByKey key hacc x)

theorem sorted_sortByKey {α : Type} (key : α → ℚ) (l : List α) :
    (sortByKey key l).Pairwise (fun a b => key a ≤ key b) :=
  sorted_sortByKeyAux key l [] List.Pairwise.nil

/-- The `valid_intersections` vector (lines 1033-1061), in push order
left, right, top, bottom: each entry is `(t, x, y)`. -/
def borderCandidates (nx ny nw nh x1 y1 x2 y2 : ℚ) : List (ℚ × ℚ × ℚ) :=
  let left := nx - nw / 2
  let right := nx + nw / 2
  let top := ny - nh / 2
  let bottom := ny + nh / 2
  let dx := x2 - x1
  let dy := y2 - y1
  (if dx ≠ 0 ∧ 0 ≤ (left - x1) / dx ∧ (left - x1) / dx ≤ 1 ∧
      top ≤ y1 + (left - x1) / dx * dy ∧ y1 + (left - x1) / dx * dy ≤ bottom
    then [((left - x1) / dx, left, y1 + (left - x1) / dx * dy)] else [])
  ++ (if dx ≠ 0 ∧ 0 ≤ (right - x1) / dx ∧ (right - x1) / dx ≤ 1 ∧
      top ≤ y1 + (right - x1) / dx * dy ∧ y1 + (right - x1) / dx * dy ≤ bottom
    then [((right - x1) / dx, right, y1 + (right - x1) / dx * dy)] else [])
  ++ (if dy ≠ 0 ∧ 0 ≤ (top - y1) / dy ∧ (top - y1) / dy ≤ 1 ∧
      left ≤ x1 + (top - y1) / dy * dx ∧ x1 + (top - y1) / dy * dx ≤ right
    then [((top - y1) / dy, x1 + (top - y1) / dy * dx, top)] else [])
  ++ (if dy ≠ 0 ∧ 0 ≤ (bottom - y1) / dy ∧ (bottom - y1) / dy ≤ 1 ∧
      left ≤ x1 + (bottom - y1) / dy * dx ∧ x1 + (bottom - y1) / dy * dx ≤ right
    then [((bottom - y1) / dy, x1 + (bottom - y1) / dy * dx, bottom)] else [])

/-- `calculate_node_border_intersection` (lines 989-1073): sort the valid
intersections by `t`, return the first, or the node center when none. -/
def calculate_node_border_intersection (nx ny nw nh x1 y1 x2 y2 : ℚ) : ℚ × ℚ :=
  match sortByKey (fun c => c.1) (borderCandidates nx ny nw nh x1 y1 x2 y2) with
  | [] => (nx, ny)
  | c :: _ => (c.2.1, c.2.2)

/-- The returned point lies exactly on one of the rectangle's four sides,
within that side's span. -/
def onBorder (nx ny nw nh : ℚ) (pt : ℚ × ℚ) : Prop :=
  (pt.1 = nx - nw / 2 ∧ ny - nh / 2 ≤ pt.2 ∧ pt.2 ≤ ny + nh / 2) ∨
  (pt.1 = nx + nw / 2 ∧ ny - nh / 2 ≤ pt.2 ∧ pt.2 ≤ ny + nh / 2) ∨
  (pt.2 = ny - nh / 2 ∧ nx - nw / 2 ≤ pt.1 ∧ pt.1 ≤ nx + nw / 2) ∨
  (pt.2 = ny + nh / 2 ∧ nx - nw / 2 ≤ pt.1 ∧ pt.1 ≤ nx + nw / 2)

theorem mem_borderCandidates {nx ny nw nh x1 y1 x2 y2 : ℚ} {c : ℚ × ℚ × ℚ}
    (hc : c ∈ borderCandidates nx ny nw nh x1 y1 x2 y2) :
    0 ≤ c.1 ∧ c.1 ≤ 1 ∧ onBorder nx ny nw nh (c.2.1, c.2.2) := by
  unfold borderCandidates at hc
  dsimp only at hc
  unfold onBorder
  rcases List.mem_append.1 hc with hc | hc4
  · rcases List.mem_append.1 hc with hc | hc3
    · rcases List.mem_append.1 hc with hc1 | hc2
      · split at hc1
        · rename_i hcond
          rcases List.mem_singleton.1 hc1 with he
          rw [he]
          exact ⟨hcond.2.1, hcond.2.2.1, Or.inl ⟨rfl, hcond.2.2.2.1, hcond.2.2.2.2⟩⟩
        · cases hc1
      · split at hc2
        · rename_i hcond
          rcases List.mem_singleton.1 hc2 with he
          rw [he]
          exact ⟨hcond.2.1, hcond.2.2.1,
            Or.inr (Or.inl ⟨rfl, hcond.2.2.2.1, hcond.2.2.2.2⟩)⟩
        · cases hc2
    · split at hc3
      · rename_i hcond
        rcases List.mem_singleton.1 hc3 with he
        rw [he]
        exact ⟨hcond.2.1, hcond.2.2.1,
          Or.inr (Or.inr (Or.inl ⟨rfl, hcond.2.2.2.1, hcond.2.2.2.2⟩))⟩
      · cases hc3
  · split at hc4
    · rename_i hcond
      rcases List.mem_singleton.1 hc4 with he
      rw [he]
      exact ⟨hcond.2.1, hcond.2.2.1,
        Or.inr (Or.inr (Or.inr ⟨rfl, hcond.2.2.2.1, hcond.2.2.2.2⟩))⟩
    · cases hc4

/-- C7: the border clipping returns, among the side intersections whose
parameter `t` lies in `[0, 1]` and whose transverse coordinate lies in the
side's span, one realizing the smallest `t`; the returned point lies exactly
on one of the rectangle's four sides within its span.  With no valid
intersection the rectangle's center is returned. -/
theorem border_intersection_spec (nx ny nw nh x1 y1 x2 y2 : ℚ) :
    (borderCandidates nx ny nw nh x1 y1 x2 y2 = [] →
      calculate_node_border_intersection nx ny nw nh x1 y1 x2 y2 = (nx, ny)) ∧
    (borderCandidates nx ny nw nh x1 y1 x2 y2 ≠ [] →
      ∃ c ∈ borderCandidates nx ny nw nh x1 y1 x2 y2,
        calculate_node_border_intersection nx ny nw nh x1 y1 x2 y2
          = (c.2.1, c.2.2) ∧
        0 ≤ c.1 ∧ c.1 ≤ 1 ∧ onBorder nx ny nw nh (c.2.1, c.2.2) ∧
        ∀ d ∈ borderCandidates nx ny nw nh x1 y1 x2 y2, c.1 ≤ d.1) := by
  constructor
  · intro hnil
    unfold calculate_node_border_intersection
    rw [hnil]
    rfl
  · intro hne
    unfold calculate_node_border_intersection
    cases hs : sortByKey (fun c => c.1) (borderCandidates nx ny nw nh x1 y1 x2 y2) with
    | nil =>
      have hcp := (sortByKey_perm (fun c : ℚ × ℚ × ℚ => c.1)
        (borderCandidates nx ny nw nh x1 y1 x2 y2)).symm
      rw [hs] at hcp
      exact absurd hcp.eq_nil hne
    | cons c rest =>
      have hcmem : c ∈ borderCandidates nx ny nw nh x1 y1 x2 y2 := by
        have hp := sortByKey_perm (fun c : ℚ × ℚ × ℚ => c.1)
          (borderCandidates nx ny nw nh x1 y1 x2 y2)
        rw [hs] at hp
        exact hp.mem_iff.1 (List.mem_cons_self c rest)
      obtain ⟨ht0, ht1, hob⟩ := mem_borderCandidates hcmem
      refine ⟨c, hcmem, rfl, ht0, ht1, hob, ?_⟩
      intro d hd
      have hp := sortByKey_perm (fun c : ℚ × ℚ × ℚ => c.1)
        (borderCandidates nx ny nw nh x1 y1 x2 y2)
      rw [hs] at hp
      have hdmem : d ∈ c :: rest := hp.mem_iff.2 hd
      rcases List.mem_cons.1 hdmem with he | hm
      · rw [he]
      · have hsorted := sorted_sortByKey (fun c : ℚ × ℚ × ℚ => c.1)
          (borderCandidates nx ny nw nh x1 y1 x2 y2)
        rw [hs] at hsorted
        exact (List.pairwise_cons.1 hsorted).1 d hm

/-- Witness for C7: the unit-direction segment from `(-200, 0)` into a
`100 × 50` rectangle centered at the origin hits the left side; a disjoint
segment far away yields the center fallback — both checked through the
theorem at one concrete input with a nonempty candidate list. -/
theorem border_intersection_spec_witness :
    (borderCandidates 0 0 100 50 (-200) 0 0 0 ≠ []) ∧
      (∃ c ∈ borderCandidates 0 0 100 50 (-200) 0 0 0,
        calculate_node_border_intersection 0 0 100 50 (-200) 0 0 0
          = (c.2.1, c.2.2) ∧
        0 ≤ c.1 ∧ c.1 ≤ 1 ∧ onBorder 0 0 100 50 (c.2.1, c.2.2) ∧
        ∀ d ∈ borderCandidates 0 0 100 50 (-200) 0 0 0, c.1 ≤ d.1) :=
  ⟨by norm_num [borderCandidates],
    (border_intersection_spec 0 0 100 50 (-200) 0 0 0).2
      (by norm_num [borderCandidates])⟩

/-! ## C2: behaviour of the rank stage on cyclic input

`assign_layers` returns a bare `HashMap` — there is no error type anywhere
in the source, and `Topo` simply never yields the nodes of a cycle, so they
are left out of the rank map without any notification to the caller. -/

theorem lookupR_fixUnassigned_none {m : RankMap} {v : Nat}
    (h : lookupR m v = none) : lookupR (fixUnassigned m) v = none := by
  unfold fixUnassigned
  dsimp only
  unfold lookupR at h ⊢
  rw [find?_fstmap m
    (fun p => if p.2 = usizeMax
      then (p.1, (m.map (fun p => p.2)).foldl max 0 + 1) else p)
    (fun p => by by_cases hpm : p.2 = usizeMax <;> simp [hpm]) v]
  rw [Option.map_eq_none'.1 h]
  rfl

/-- C2 counterexample: on the two-node cycle `0→1→0`, the topological
traversal visits nothing and `assign_layers` returns normally with an empty
rank map — no error of any kind is produced, contradicting the claim that a
`CycleDetected` failure is surfaced to the caller. -/
theorem cycle_silently_dropped :
    topoVisit (Graph.mk 2 [(0, 1), (1, 0)]) = [] ∧
      assign_layers (Graph.mk 2 [(0, 1), (1, 0)])
        (topoVisit (Graph.mk 2 [(0, 1), (1, 0)])) = [] ∧
      lookupR (assign_layers (Graph.mk 2 [(0, 1), (1, 0)])
        (topoVisit (Graph.mk 2 [(0, 1), (1, 0)]))) 0 = none := by
  decide

/-- C2 amended: on a non-acyclic input the rank stage does not fail — it
returns normally, and every node with a predecessor that the topological
traversal could not visit is silently absent from the returned rank map. -/
theorem assign_layers_silently_omits_unvisited (g : Graph) (order : List Nat)
    {v : Nat} (hv : v ∉ order) (hp : preds g v ≠ []) :
    lookupR (assign_layers g order) v = none := by
  have hinit : lookupR (initRanks g) v = none := by
    rw [lookupR_initRanks]
    simp [hp]
  have hfold : lookupR (order.foldl (assignStep g) (initRanks g)) v = none := by
    rw [lookupR_foldl_not_mem g hv, hinit]
  unfold assign_layers
  rw [lookupR_normalize, lookupR_fixUnassigned_none hfold]
  rfl

/-- Witness for the amended C2, on the two-node cycle at node 0. -/
theorem assign_layers_silently_omits_unvisited_witness :
    (0 ∉ topoVisit (Graph.mk 2 [(0, 1), (1, 0)])) ∧
      preds (Graph.mk 2 [(0, 1), (1, 0)]) 0 ≠ [] ∧
      lookupR (assign_layers (Graph.mk 2 [(0, 1), (1, 0)])
        (topoVisit (Graph.mk 2 [(0, 1), (1, 0)]))) 0 = none :=
  ⟨by decide, by decide,
    assign_layers_silently_omits_unvisited _ _ (by decide) (by decide)⟩

/-! ## C9: graph construction and dangling edges (sugiyama.rs lines
526-540, petgraph.rs lines 347-351)

Both call sites guard `add_edge` with
`if let (Some(source_idx), Some(target_idx)) = (node_indices.get(source),
node_indices.get(target))` — an edge naming an unknown id is skipped without
any error. -/

/-- `node_indices: HashMap<String, NodeIndex>`: each id maps to its
`add_node` index (insertion order); a repeated id keeps the last index. -/
def nodeIndex (ids : List String) (s : String) : Option Nat :=
  (ids.enum.reverse.find? (fun p => p.2 = s)).map (fun p => p.1)

/-- The edge loop: an edge is added only when both endpoint ids resolve. -/
def buildEdges (ids : List String) (es : List (String × String)) :
    List (Nat × Nat) :=
  es.foldl (fun acc e =>
    match nodeIndex ids e.1, nodeIndex ids e.2 with
    | some si, some ti => acc ++ [(si, ti)]
    | _, _ => acc) []

theorem buildEdges_shift (ids : List String) (es : List (String × String))
    (init : List (Nat × Nat)) :
    es.foldl (fun acc e =>
        match nodeIndex ids e.1, nodeIndex ids e.2 with
        | some si, some ti => acc ++ [(si, ti)]
        | _, _ => acc) init
      = init ++ buildEdges ids es := by
  induction es generalizing init with
  | nil => simp [buildEdges]
  | cons e es ih =>
    have hstep : ∀ acc : List (Nat × Nat),
        (match nodeIndex ids e.1, nodeIndex ids e.2 with
          | some si, some ti => acc ++ [(si, ti)]
          | _, _ => acc)
          = acc ++ (match nodeIndex ids e.1, nodeIndex ids e.2 with
            | some si, some ti => ([(si, ti)] : List (Nat × Nat))
            | _, _ => []) := by
      intro acc
      cases nodeIndex ids e.1 <;> cases nodeIndex ids e.2 <;> simp
    have h2 : buildEdges ids (e :: es)
        = (match nodeIndex ids e.1, nodeIndex ids e.2 with
            | some si, some ti => ([(si, ti)] : List (Nat × Nat))
            | _, _ => []) ++ buildEdges ids es := by
      unfold buildEdges
      rw [List.foldl_cons, ih, hstep, List.nil_append]
      rfl
    rw [List.foldl_cons, hstep, ih, h2, List.append_assoc]

theorem nodeIndex_lt {ids : List String} {s : String} {i : Nat}
    (h : nodeIndex ids s = some i) : i < ids.length := by
  unfold nodeIndex at h
  rcases Option.map_eq_some'.1 h with ⟨p, hp, hpi⟩
  have hm := List.mem_of_find?_eq_some hp
  have hme : p ∈ ids.enum := List.mem_reverse.1 hm
  have hlt := List.fst_lt_of_mem_enum hme
  omega

/-- C9 counterexample: the edge `("a", "b")` over the node set `["a"]`
references the unknown id `"b"`; the construction returns normally with the
edge silently dropped (no `DanglingEdgeReference` failure exists in the
code), while the same edge over `["a", "b"]` is added. -/
theorem dangling_edge_silently_skipped :
    buildEdges ["a"] [("a", "b")] = [] ∧
      buildEdges ["a", "b"] [("a", "b")] = [(0, 1)] := by
  constructor <;> rfl

/-- C9 amended: an edge with an endpoint id absent from the node set
contributes nothing to the constructed graph (it is silently skipped, never
an error), and every edge that is added stays in range of the node set (no
out-of-range indexing). -/
theorem buildEdges_skips_dangling :
    (∀ (ids : List String) (es₁ es₂ : List (String × String))
        (e : String × String),
        nodeIndex ids e.1 = none ∨ nodeIndex ids e.2 = none →
        buildEdges ids (es₁ ++ e :: es₂) = buildEdges ids (es₁ ++ es₂)) ∧
      ∀ (ids : List String) (es : List (String × String)) (p : Nat × Nat),
        p ∈ buildEdges ids es → p.1 < ids.length ∧ p.2 < ids.length := by
  constructor
  · intro ids es₁ es₂ e he
    unfold buildEdges
    rw [List.foldl_append, List.foldl_append, List.foldl_cons]
    have hskip : (match nodeIndex ids e.1, nodeIndex ids e.2 with
        | some si, some ti =>
          (es₁.foldl (fun acc e =>
            match nodeIndex ids e.1, nodeIndex ids e.2 with
            | some si, some ti => acc ++ [(si, ti)]
            | _, _ => acc) []) ++ [(si, ti)]
        | _, _ => es₁.foldl (fun acc e =>
            match nodeIndex ids e.1, nodeIndex ids e.2 with
            | some si, some ti => acc ++ [(si, ti)]
            | _, _ => acc) [])
        = es₁.foldl (fun acc e =>
            match nodeIndex ids e.1, nodeIndex ids e.2 with
            | some si, some ti => acc ++ [(si, ti)]
            | _, _ => acc) [] := by
      rcases he with h1 | h2
      · rw [h1]
      · rw [h2]
        cases nodeIndex ids e.1 <;> rfl
    rw [hskip]
  · intro ids es
    induction es with
    | nil => intro p hp; cases hp
    | cons e es ih =>
      intro p hp
      have h2 : buildEdges ids (e :: es)
          = (match nodeIndex ids e.1, nodeIndex ids e.2 with
              | some si, some ti => ([(si, ti)] : List (Nat × Nat))
              | _, _ => []) ++ buildEdges ids es := by
        unfold buildEdges
        rw [List.foldl_cons, buildEdges_shift, buildEdges_shift]
        cases nodeIndex ids e.1 <;> cases nodeIndex ids e.2 <;> simp
      rw [h2] at hp
      rcases List.mem_append.1 hp with hfst | hrest
      · cases h1 : nodeIndex ids e.1 with
        | none => rw [h1] at hfst; cases hfst
        | some si =>
          cases h2t : nodeIndex ids e.2 with
          | none => rw [h1, h2t] at hfst; cases hfst
          | some ti =>
            rw [h1, h2t] at hfst
            rcases List.mem_singleton.1 hfst with he
            rw [he]
            exact ⟨nodeIndex_lt h1, nodeIndex_lt h2t⟩
      · exact ih p hrest

/-- Witness for the amended C9: dropping the dangling edge `("a", "b")`
over `["a"]`, and the range bound on the surviving edge over `["a", "b"]`. -/
theorem buildEdges_skips_dangling_witness :
    buildEdges ["a"] ([] ++ ("a", "b") :: []) = buildEdges ["a"] ([] ++ []) ∧
      ((0, 1) ∈ buildEdges ["a", "b"] [("a", "b")] →
        (0 : Nat) < (["a", "b"] : List String).length ∧
          (1 : Nat) < (["a", "b"] : List String).length) :=
  ⟨buildEdges_skips_dangling.1 ["a"] [] [] ("a", "b") (Or.inr rfl),
    buildEdges_skips_dangling.2 ["a", "b"] [("a", "b")] (0, 1)⟩

/-! ## C8: determinism of the first two stages

The rank map computed by the topological fold is in fact independent of
which topological order `Topo` happens to produce: every valid order yields
the same fixpoint (`rank v = 1 + max of the predecessors' final ranks`).
The layer orderer consumes the rank map only through `get` and is a pure
function of it and of the grouping enumeration, so two runs with the same
enumeration produce identical layer orderings. -/

theorem edge_of_mem_preds {g : Graph} {p v : Nat} (h : p ∈ preds g v) :
    (p, v) ∈ g.edges := by
  unfold preds at h
  rcases List.mem_map.1 h with ⟨e, he, hpe⟩
  rcases List.mem_filter.1 he with ⟨hmem, hsnd⟩
  simp only [decide_eq_true_eq] at hsnd
  have : e = (p, v) := by
    cases e
    simp only at hpe hsnd
    rw [hpe, hsnd]
  exact this ▸ hmem

theorem order_decomp {order : List Nat} {v : Nat} (hv : v ∈ order) :
    order.take (order.indexOf v) ++ v :: order.drop (order.indexOf v + 1)
      = order := by
  have hkl : order.indexOf v < order.length := List.indexOf_lt_length.2 hv
  have hgetv : order[order.indexOf v] = v := List.getElem_indexOf hkl
  conv_rhs => rw [← List.take_append_drop (order.indexOf v) order]
  rw [← List.get_drop_eq_drop order _ hkl, hgetv]

theorem mem_take_of_indexOf_lt {order : List Nat} {u : Nat} (hu : u ∈ order)
    {k : Nat} (hk : order.indexOf u < k) : u ∈ order.take k := by
  have hiul : order.indexOf u < order.length := List.indexOf_lt_length.2 hu
  have hlen : order.indexOf u < (order.take k).length := by
    rw [List.length_take]
    exact lt_min hk hiul
  have hgu : (order.take k)[order.indexOf u] = u := by
    rw [List.getElem_take]
    exact List.getElem_indexOf hiul
  exact hgu ▸ List.getElem_mem hlen

theorem not_mem_take_indexOf {order : List Nat} (hnd : order.Nodup) {v : Nat}
    (hv : v ∈ order) : v ∉ order.take (order.indexOf v) := by
  have hnd2 := hnd
  rw [← order_decomp hv] at hnd2
  rcases List.nodup_append.1 hnd2 with ⟨-, -, hdisj⟩
  intro hmem
  exact hdisj hmem (List.mem_cons_self _ _)

theorem foldl_max_congr (f₁ f₂ : Nat → Nat) {l : List Nat}
    (h : ∀ p ∈ l, f₁ p = f₂ p) (a : Nat) :
    l.foldl (fun acc p => max acc (f₁ p)) a
      = l.foldl (fun acc p => max acc (f₂ p)) a := by
  induction l generalizing a with
  | nil => rfl
  | cons x l ih =>
    rw [List.foldl_cons, List.foldl_cons, h x (List.mem_cons_self x l)]
    exact ih (fun p hp => h p (List.mem_cons_of_mem x hp)) _

/-- The keys of a rank map are distinct. -/
def keysND (m : RankMap) : Prop := (m.map (fun p => p.1)).Nodup

theorem keysND_insertR {m : RankMap} {v r : Nat} (hnd : keysND m) :
    keysND (insertR m v r) := by
  unfold insertR
  split
  · unfold keysND
    rw [List.map_map]
    have hcomp : ((fun p : Nat × Nat => p.1)
        ∘ fun p : Nat × Nat => if p.1 = v then (v, r) else p)
        = fun p : Nat × Nat => p.1 := by
      funext p
      by_cases h : p.1 = v <;> simp [h]
    rw [hcomp]
    exact hnd
  · rename_i h
    have hfind : List.find? (fun p => p.1 = v) m = none := by
      cases hf : List.find? (fun p => p.1 = v) m with
      | none => rfl
      | some p => rw [hf] at h; simp at h
    have hnotmem : v ∉ m.map (fun p => p.1) := by
      intro hmem
      rcases List.mem_map.1 hmem with ⟨p, hp, hpv⟩
      have := List.find?_eq_none.1 hfind p hp
      simp [hpv] at this
    unfold keysND
    rw [List.map_append]
    refine List.nodup_append.2 ⟨hnd, List.nodup_singleton v, ?_⟩
    intro a ha hb
    rcases List.mem_singleton.1 hb with rfl
    exact hnotmem ha

theorem keysND_assignStep (g : Graph) {m : RankMap} (hnd : keysND m)
    (v : Nat) : keysND (assignStep g m v) := by
  unfold assignStep
  split
  · exact hnd
  · dsimp only
    split <;> exact keysND_insertR hnd

theorem keysND_foldl (g : Graph) {m : RankMap} (hnd : keysND m)
    (l : List Nat) : keysND (l.foldl (assignStep g) m) := by
  induction l generalizing m with
  | nil => exact hnd
  | cons v l ih => exact ih (keysND_assignStep g hnd v)

theorem keysND_initRanks (g : Graph) : keysND (initRanks g) := by
  unfold initRanks
  generalize List.range g.n = l
  have : ∀ (l : List Nat) (m : RankMap), keysND m →
      keysND (l.foldl (fun m v => if preds g v = [] then insertR m v 0 else m) m) := by
    intro l
    induction l with
    | nil => exact fun m h => h
    | cons v l ih =>
      intro m hm
      rw [List.foldl_cons]
      refine ih _ ?_
      split
      · exact keysND_insertR hm
      · exact hm
  exact this l [] (by simp [keysND])

theorem lookupR_of_mem_keysND {m : RankMap} (hnd : keysND m) {v r : Nat}
    (h : (v, r) ∈ m) : lookupR m v = some r := by
  induction m with
  | nil => cases h
  | cons q m ih =>
    rcases List.nodup_cons.1 hnd with ⟨hq, hm⟩
    rcases List.mem_cons.1 h with he | hmem
    · unfold lookupR
      rw [List.find?_cons_of_pos _ (by rw [← he]; simp)]
      rw [← he]
      rfl
    · have hmemv : v ∈ m.map (fun p => p.1) :=
        List.mem_map.2 ⟨(v, r), hmem, rfl⟩
      have hqv : ¬ q.1 = v := by
        intro hqe
        apply hq
        show q.1 ∈ m.map (fun p => p.1)
        rw [hqe]
        exact hmemv
      unfold lookupR
      rw [List.find?_cons_of_neg _ (by simpa using hqv)]
      exact ih hm hmem

theorem perm_of_lookupR_eq {m₁ m₂ : RankMap} (h₁ : keysND m₁)
    (h₂ : keysND m₂) (h : ∀ v, lookupR m₁ v = lookupR m₂ v) :
    m₁.Perm m₂ := by
  refine (List.perm_ext_iff_of_nodup (List.Nodup.of_map _ h₁)
    (List.Nodup.of_map _ h₂)).2 ?_
  rintro ⟨v, r⟩
  constructor
  · intro hm
    exact lookupR_mem ((h v) ▸ lookupR_of_mem_keysND h₁ hm)
  · intro hm
    exact lookupR_mem ((h v).symm ▸ lookupR_of_mem_keysND h₂ hm)

theorem foldl_min_mem : ∀ (xs : List Nat) (x : Nat), xs.foldl min x ∈ x :: xs := by
  intro xs
  induction xs with
  | nil => intro x; exact List.mem_singleton.2 rfl
  | cons y ys ih =>
    intro x
    rw [List.foldl_cons]
    have hmem := ih (min x y)
    rcases List.mem_cons.1 hmem with he | hm
    · rcases min_choice x y with hc | hc
      · rw [he, hc]
        exact List.mem_cons_self _ _
      · rw [he, hc]
        exact List.mem_cons_of_mem _ (List.mem_cons_self _ _)
    · exact List.mem_cons_of_mem _ (List.mem_cons_of_mem _ hm)

theorem minVals_mem {m : RankMap} (h : m ≠ []) :
    minVals m ∈ m.map (fun p => p.2) := by
  unfold minVals
  cases hm : m.map (fun p => p.2) with
  | nil => exact absurd (List.map_eq_nil_iff.1 hm) h
  | cons x xs => exact foldl_min_mem xs x

theorem minVals_le_of_mem {m : RankMap} {r : Nat}
    (h : r ∈ m.map (fun p => p.2)) : minVals m ≤ r := by
  unfold minVals
  revert h
  cases m.map (fun p => p.2) with
  | nil => intro h; cases h
  | cons x xs =>
    intro h
    rcases List.mem_cons.1 h with he | hmem
    · subst he
      exact foldl_min_le_init _ _
    · exact foldl_min_le_mem hmem x

theorem minVals_congr {m₁ m₂ : RankMap} (hp : m₁.Perm m₂) :
    minVals m₁ = minVals m₂ := by
  by_cases h1 : m₁ = []
  · subst h1
    rw [hp.symm.eq_nil]
  · have h2 : m₂ ≠ [] := by
      intro he
      subst he
      exact h1 hp.eq_nil
    have hvp : (m₁.map (fun p => p.2)).Perm (m₂.map (fun p => p.2)) :=
      hp.map _
    refine le_antisymm ?_ ?_
    · exact minVals_le_of_mem (hvp.symm.mem_iff.1 (minVals_mem h2))
    · exact minVals_le_of_mem (hvp.mem_iff.1 (minVals_mem h1))

theorem assignStep_value_eq {g : Graph} {m : RankMap} {v : Nat}
    (hnone : lookupR m v = none) (hp : preds g v ≠ []) :
    lookupR (assignStep g m v) v
      = some ((preds g v).foldl (fun acc p =>
          max acc ((lookupR m p).getD 0 + 1)) 0) := by
  unfold assignStep
  split
  · rename_i h
    rw [hnone] at h
    simp at h
  · dsimp only
    rw [if_neg hp]
    exact lookupR_insertR_self _ _ _

/-- The rank a node receives from the topological fold satisfies the
longest-path fixpoint equation over its predecessors' final ranks. -/
theorem topoFold_fixpoint (g : Graph) (order : List Nat) (hwf : g.Wf)
    (hperm : order.Perm (List.range g.n))
    (hord : ∀ e ∈ g.edges, order.indexOf e.1 < order.indexOf e.2)
    {v : Nat} (hv : v < g.n) :
    lookupR (order.foldl (assignStep g) (initRanks g)) v
      = some (if preds g v = [] then 0
          else (preds g v).foldl (fun acc p =>
            max acc ((lookupR (order.foldl (assignStep g) (initRanks g)) p).getD 0
              + 1)) 0) := by
  by_cases hp : preds g v = []
  · rw [if_pos hp]
    have hinit : lookupR (initRanks g) v = some 0 := by
      rw [lookupR_initRanks, if_pos ⟨hv, hp⟩]
    exact lookupR_foldl_of_some g hinit order
  · rw [if_neg hp]
    have hvmem : v ∈ order := hperm.mem_iff.2 (List.mem_range.2 hv)
    have hnd : order.Nodup := hperm.nodup_iff.2 (List.nodup_range g.n)
    have hdecomp := order_decomp hvmem
    have hvtake : v ∉ order.take (order.indexOf v) := not_mem_take_indexOf hnd hvmem
    have hvinit : lookupR (initRanks g) v = none := by
      rw [lookupR_initRanks]
      simp [hp]
    have hvm₁ : lookupR ((order.take (order.indexOf v)).foldl (assignStep g)
        (initRanks g)) v = none := by
      rw [lookupR_foldl_not_mem g hvtake, hvinit]
    have hfold : order.foldl (assignStep g) (initRanks g)
        = (order.drop (order.indexOf v + 1)).foldl (assignStep g)
            (assignStep g ((order.take (order.indexOf v)).foldl (assignStep g)
              (initRanks g)) v) := by
      conv_lhs => rw [← hdecomp]
      rw [List.foldl_append, List.foldl_cons]
    have hstep : lookupR (assignStep g ((order.take (order.indexOf v)).foldl
        (assignStep g) (initRanks g)) v) v
        = some ((preds g v).foldl (fun acc p =>
            max acc ((lookupR ((order.take (order.indexOf v)).foldl (assignStep g)
              (initRanks g)) p).getD 0 + 1)) 0) :=
      assignStep_value_eq hvm₁ hp
    have hfinal : lookupR (order.foldl (assignStep g) (initRanks g)) v
        = some ((preds g v).foldl (fun acc p =>
            max acc ((lookupR ((order.take (order.indexOf v)).foldl (assignStep g)
              (initRanks g)) p).getD 0 + 1)) 0) := by
      rw [hfold]
      exact lookupR_foldl_of_some g hstep _
    rw [hfinal]
    congr 1
    refine foldl_max_congr
      (fun p => (lookupR ((order.take (order.indexOf v)).foldl (assignStep g)
        (initRanks g)) p).getD 0 + 1)
      (fun p => (lookupR (order.foldl (assignStep g) (initRanks g)) p).getD 0 + 1)
      ?_ 0
    intro p hpmem
    have hedge : (p, v) ∈ g.edges := edge_of_mem_preds hpmem
    have hpn : p < g.n := (hwf _ hedge).1
    have hpmemo : p ∈ order := hperm.mem_iff.2 (List.mem_range.2 hpn)
    have hpidx : order.indexOf p < order.indexOf v := hord _ hedge
    have hptake : p ∈ order.take (order.indexOf v) :=
      mem_take_of_indexOf_lt hpmemo hpidx
    obtain ⟨rp, hrp⟩ := Option.isSome_iff_exists.1
      (isSome_lookupR_foldl_of_mem g hptake (initRanks g))
    have hrpfinal : lookupR (order.foldl (assignStep g) (initRanks g)) p
        = some rp := by
      rw [hfold]
      exact lookupR_foldl_of_some g (lookupR_assignStep_of_some v hrp) _
    dsimp only
    rw [hrp, hrpfinal]

/-- The topological fold's result is independent of which valid topological
order is used: any two orders give the same rank to every node. -/
theorem topoFold_lookup_eq (g : Graph) (hwf : g.Wf) {ord₁ ord₂ : List Nat}
    (h₁ : IsTopoOrder g ord₁) (h₂ : IsTopoOrder g ord₂) :
    ∀ v, lookupR (ord₁.foldl (assignStep g) (initRanks g)) v
      = lookupR (ord₂.foldl (assignStep g) (initRanks g)) v := by
  obtain ⟨hperm₁, hord₁⟩ := h₁
  obtain ⟨hperm₂, hord₂⟩ := h₂
  have main : ∀ k v, v < g.n → ord₁.indexOf v < k →
      lookupR (ord₁.foldl (assignStep g) (initRanks g)) v
        = lookupR (ord₂.foldl (assignStep g) (initRanks g)) v := by
    intro k
    induction k with
    | zero =>
      intro v _ hk
      exact absurd hk (Nat.not_lt_zero _)
    | succ k ih =>
      intro v hv hk
      rw [topoFold_fixpoint g ord₁ hwf hperm₁ hord₁ hv,
        topoFold_fixpoint g ord₂ hwf hperm₂ hord₂ hv]
      by_cases hp : preds g v = []
      · rw [if_pos hp, if_pos hp]
      · rw [if_neg hp, if_neg hp]
        congr 1
        refine foldl_max_congr _ _ ?_ 0
        intro p hpmem
        have hedge := edge_of_mem_preds hpmem
        have hpn : p < g.n := (hwf _ hedge).1
        have hpidx : ord₁.indexOf p < ord₁.indexOf v := hord₁ _ hedge
        rw [ih p hpn (lt_of_lt_of_le hpidx (Nat.lt_succ_iff.1 hk))]
  intro v
  by_cases hv : v < g.n
  · exact main (ord₁.indexOf v + 1) v hv (Nat.lt_succ_self _)
  · have hno₁ : v ∉ ord₁ := fun hm => hv (List.mem_range.1 (hperm₁.mem_iff.1 hm))
    have hno₂ : v ∉ ord₂ := fun hm => hv (List.mem_range.1 (hperm₂.mem_iff.1 hm))
    rw [lookupR_foldl_not_mem g hno₁, lookupR_foldl_not_mem g hno₂]

theorem fixUnassigned_topoFold (g : Graph) {order : List Nat}
    (hperm : order.Perm (List.range g.n)) (hn : g.n < usizeMax) :
    fixUnassigned (order.foldl (assignStep g) (initRanks g))
      = order.foldl (assignStep g) (initRanks g) := by
  refine fixUnassigned_eq_self (fun p hp => ?_)
  have hbound : Bounded (order.foldl (assignStep g) (initRanks g)) order.length := by
    simpa using bounded_foldl g (bounded_initRanks g) order
  have hb := hbound p hp
  have hlen : order.length = g.n := by
    rw [hperm.length_eq, List.length_range]
  rw [hlen] at hb
  omega

theorem assign_layers_lookup_eq (g : Graph) {ord₁ ord₂ : List Nat}
    (hwf : g.Wf) (h₁ : IsTopoOrder g ord₁) (h₂ : IsTopoOrder g ord₂)
    (hn : g.n < usizeMax) :
    ∀ v, lookupR (assign_layers g ord₁) v = lookupR (assign_layers g ord₂) v := by
  intro v
  unfold assign_layers
  rw [fixUnassigned_topoFold g h₁.1 hn, fixUnassigned_topoFold g h₂.1 hn,
    lookupR_normalize, lookupR_normalize, topoFold_lookup_eq g hwf h₁ h₂ v]
  have hmv : minVals (ord₁.foldl (assignStep g) (initRanks g))
      = minVals (ord₂.foldl (assignStep g) (initRanks g)) :=
    minVals_congr (perm_of_lookupR_eq
      (keysND_foldl g (keysND_initRanks g) ord₁)
      (keysND_foldl g (keysND_initRanks g) ord₂)
      (topoFold_lookup_eq g hwf h₁ h₂))
  rw [hmv]

/-- C8: two-run determinism of the first two stages.  Stronger than needed:
any two valid topological traversals give pointwise-identical rank maps, and
with the same HashMap enumeration of the rank map the layer orderings are
identical; in particular running the two stages twice on the same input
(with the same iteration order) reproduces the same result. -/
theorem two_run_determinism (g : Graph) (ord₁ ord₂ : List Nat)
    (enum : List (Nat × Nat)) (hwf : g.Wf) (h₁ : IsTopoOrder g ord₁)
    (h₂ : IsTopoOrder g ord₂) (hn : g.n < usizeMax) :
    (∀ v, lookupR (assign_layers g ord₁) v = lookupR (assign_layers g ord₂) v) ∧
      order_nodes_within_layers g (lookupR (assign_layers g ord₁)) enum
        = order_nodes_within_layers g (lookupR (assign_layers g ord₂)) enum := by
  have hlk := assign_layers_lookup_eq g hwf h₁ h₂ hn
  refine ⟨hlk, ?_⟩
  have hfun : lookupR (assign_layers g ord₁) = lookupR (assign_layers g ord₂) :=
    funext hlk
  rw [hfun]

/-- Witness for C8: the diamond graph under two different topological
orders, with one concrete enumeration of the rank map. -/
theorem two_run_determinism_witness :
    (Graph.mk 4 [(0, 1), (0, 2), (1, 3), (2, 3)]).Wf ∧
      IsTopoOrder (Graph.mk 4 [(0, 1), (0, 2), (1, 3), (2, 3)]) [0, 1, 2, 3] ∧
      IsTopoOrder (Graph.mk 4 [(0, 1), (0, 2), (1, 3), (2, 3)]) [0, 2, 1, 3] ∧
      (4 < usizeMax) ∧
      ((∀ v, lookupR (assign_layers (Graph.mk 4 [(0, 1), (0, 2), (1, 3), (2, 3)])
            [0, 1, 2, 3]) v
          = lookupR (assign_layers (Graph.mk 4 [(0, 1), (0, 2), (1, 3), (2, 3)])
            [0, 2, 1, 3]) v) ∧
        order_nodes_within_layers (Graph.mk 4 [(0, 1), (0, 2), (1, 3), (2, 3)])
          (lookupR (assign_layers (Graph.mk 4 [(0, 1), (0, 2), (1, 3), (2, 3)])
            [0, 1, 2, 3])) [(0, 0), (1, 1), (2, 1), (3, 2)]
        = order_nodes_within_layers (Graph.mk 4 [(0, 1), (0, 2), (1, 3), (2, 3)])
          (lookupR (assign_layers (Graph.mk 4 [(0, 1), (0, 2), (1, 3), (2, 3)])
            [0, 2, 1, 3])) [(0, 0), (1, 1), (2, 1), (3, 2)]) :=
  ⟨by decide, by decide, by decide, by decide,
    two_run_determinism _ [0, 1, 2, 3] [0, 2, 1, 3] [(0, 0), (1, 1), (2, 1), (3, 2)]
      (by decide) (by decide) (by decide) (by decide)⟩

end HGL
